import Mathlib

/-!
# Verification of the `rust-mcts` search engine (`src/mcts.rs`)

Shallow embedding of the Monte-Carlo tree-search engine of `jbornschein/rust-mcts`.

Modelling conventions:
* `f32` visit counts and value sums are modelled as rationals (`ℚ`); the claims
  under study are about exact bookkeeping identities, never about rounding.
* The `f32` functions `ln` and `sqrt` appearing in the UCT score are modelled as
  abstract parameters `lg sq : ℚ → ℚ`; no claim depends on their values.
* `i32` tree-statistics counters are modelled as `ℤ` (debug Rust aborts on
  overflow; overflowing trees are out of scope for the claims).
* Randomness (`rand::thread_rng`) is modelled by an explicit oracle: each call of
  `choose_random` receives a natural number `r` and picks index `r % len`,
  exactly as `utils::choose_random` computes `rng.gen::<usize>() % length`.
  An oracle stream `rng : ℕ → ℕ` with a position counter threads through the
  recursive search code.
* Rust panics (`unwrap`, `expect`, `% 0`, index out of bounds) are modelled by
  `Option`: a function returns `none` exactly when the Rust original aborts.
* The unbounded `while` loop of `playout` is modelled with explicit fuel; the
  source assumes finite games and diverges otherwise.
-/

namespace Mcts

/-- Node expansion state, from `enum NodeState` in `src/mcts.rs`. -/
inductive NodeState where
  | LeafNode
  | FullyExpanded
  | Expandable
deriving DecidableEq, Repr

/-- A search-tree vertex, from `struct TreeNode<A>` in `src/mcts.rs`:
action that reached the node, ordered children, expansion state, and the
visit/value statistics `n`, `q` (f32 modelled as `ℚ`). -/
inductive TreeNode (A : Type) where
  | mk (action : Option A) (children : List (TreeNode A)) (state : NodeState)
      (n : ℚ) (q : ℚ)

/-- Field accessor for `TreeNode.action`. -/
def TreeNode.action {A : Type} : TreeNode A → Option A
  | .mk a _ _ _ _ => a

/-- Field accessor for `TreeNode.children`. -/
def TreeNode.children {A : Type} : TreeNode A → List (TreeNode A)
  | .mk _ cs _ _ _ => cs

/-- Field accessor for `TreeNode.state`. -/
def TreeNode.state {A : Type} : TreeNode A → NodeState
  | .mk _ _ st _ _ => st

/-- Field accessor for the visit count `TreeNode.n`. -/
def TreeNode.n {A : Type} : TreeNode A → ℚ
  | .mk _ _ _ n _ => n

/-- Field accessor for the value sum `TreeNode.q`. -/
def TreeNode.q {A : Type} : TreeNode A → ℚ
  | .mk _ _ _ _ q => q

/-- Accessor reduction on a literal node. -/
@[simp] theorem TreeNode.action_mk {A : Type} (a : Option A)
    (cs : List (TreeNode A)) (st : NodeState) (n q : ℚ) :
    (TreeNode.mk a cs st n q).action = a := rfl

/-- Accessor reduction on a literal node. -/
@[simp] theorem TreeNode.children_mk {A : Type} (a : Option A)
    (cs : List (TreeNode A)) (st : NodeState) (n q : ℚ) :
    (TreeNode.mk a cs st n q).children = cs := rfl

/-- Accessor reduction on a literal node. -/
@[simp] theorem TreeNode.state_mk {A : Type} (a : Option A)
    (cs : List (TreeNode A)) (st : NodeState) (n q : ℚ) :
    (TreeNode.mk a cs st n q).state = st := rfl

/-- Accessor reduction on a literal node. -/
@[simp] theorem TreeNode.n_mk {A : Type} (a : Option A)
    (cs : List (TreeNode A)) (st : NodeState) (n q : ℚ) :
    (TreeNode.mk a cs st n q).n = n := rfl

/-- Accessor reduction on a literal node. -/
@[simp] theorem TreeNode.q_mk {A : Type} (a : Option A)
    (cs : List (TreeNode A)) (st : NodeState) (n q : ℚ) :
    (TreeNode.mk a cs st n q).q = q := rfl

/-- A child is structurally smaller than its parent (for termination proofs). -/
theorem TreeNode.sizeOf_mem_children {A : Type} {c t : TreeNode A}
    (hc : c ∈ t.children) : sizeOf c < sizeOf t := by
  cases t with
  | mk a cs st n q =>
    have h1 : sizeOf c < sizeOf cs :=
      List.sizeOf_lt_of_mem (by simpa [TreeNode.children] using hc)
    simp only [TreeNode.mk.sizeOf_spec]
    omega

/-- Strong induction over trees: to prove `P t`, one may assume `P` for all
children. -/
theorem TreeNode.strongInd {A : Type} {P : TreeNode A → Prop}
    (h : ∀ t : TreeNode A, (∀ c ∈ t.children, P c) → P t) :
    ∀ t : TreeNode A, P t := fun t =>
  h t (fun _ hc => TreeNode.strongInd h _)
termination_by t => sizeOf t
decreasing_by exact TreeNode.sizeOf_mem_children hc

/-- `TreeNode::new(action)`: fresh node with `n = 0`, `q = 0`, no children,
state `Expandable` (`src/mcts.rs`). -/
def TreeNode.new {A : Type} (action : Option A) : TreeNode A :=
  .mk action [] NodeState.Expandable 0 0

/-- Subtree shape summary, from `struct TreeStatistics` in `src/mcts.rs`
(`i32` fields modelled as `ℤ`). -/
structure TreeStatistics where
  nodes : ℤ
  min_depth : ℤ
  max_depth : ℤ
deriving DecidableEq, Repr

/-- `i32::MAX`, the seed of the `min` fold in `TreeStatistics::merge`. -/
def i32MAX : ℤ := 2147483647

/-- `TreeStatistics::merge` from `src/mcts.rs`: an empty child list yields
`{1, 0, 0}`; otherwise the node count is the fold-sum of the children's
node counts (note: the source adds no `1 +` here), and the depths are
`1 +` the fold-min/fold-max of the children's depths. -/
def TreeStatistics.merge (child_stats : List TreeStatistics) : TreeStatistics :=
  if child_stats.length = 0 then
    ⟨1, 0, 0⟩
  else
    ⟨child_stats.foldl (fun sum child => sum + child.nodes) 0,
     1 + child_stats.foldl (fun depth child => min depth child.min_depth) i32MAX,
     1 + child_stats.foldl (fun depth child => max depth child.max_depth) 0⟩

/-- `TreeNode::tree_statistics` from `src/mcts.rs`: merge the recursively
computed statistics of all children. -/
def TreeNode.tree_statistics {A : Type} : TreeNode A → TreeStatistics
  | t => TreeStatistics.merge (t.children.attach.map fun c => c.1.tree_statistics)
termination_by t => sizeOf t
decreasing_by exact TreeNode.sizeOf_mem_children c.2

/-- Unfolding lemma for `tree_statistics` without `attach`. -/
theorem TreeNode.tree_statistics_def {A : Type} (t : TreeNode A) :
    t.tree_statistics
      = TreeStatistics.merge (t.children.map TreeNode.tree_statistics) := by
  rw [TreeNode.tree_statistics]
  congr 1
  exact List.attach_map_coe _ _

/-- `utils::choose_random`: returns `vec[rng.gen::<usize>() % length]`.
The oracle value `r` stands for the sampled `usize`; `none` models the
panic on an empty vector (remainder by zero). -/
def choose_random {α : Type} (r : ℕ) (l : List α) : Option α :=
  l.get? (r % l.length)

/-- The `Game` trait of `src/mcts.rs` as a record of pure functions on an
explicit state type: `allowed_actions`, `make_move`, `reward` (f32 as `ℚ`)
and `set_rng_seed` (the `u32` seed as `ℕ`; callers reduce mod `2^32`).
`Clone` is value copying, implicit in the functional embedding. -/
structure GameDef (S A : Type) where
  allowed_actions : S → List A
  make_move : S → A → S
  reward : S → ℚ
  set_rng_seed : S → ℕ → S

/-- `playout` from `src/mcts.rs`: repeatedly apply a randomly chosen allowed
action until none remain. `fuel` bounds the unbounded `while` loop (the
source assumes finite games); `k` is the oracle position, returned advanced. -/
def playoutAux {S A : Type} (g : GameDef S A) (rng : ℕ → ℕ) :
    ℕ → ℕ → S → S × ℕ
  | 0, k, s => (s, k)
  | fuel + 1, k, s =>
    match choose_random (rng k) (g.allowed_actions s) with
    | none => (s, k)
    | some a => playoutAux g rng fuel (k + 1) (g.make_move s a)

/-- The selection loop shared by `best_child` and `best_action`
(`src/mcts.rs`): a running `(best_value, best)` pair starting from
`NEG_INFINITY` / `None` (modelled by `none`), updated on strict
improvement `value > best_value`. -/
def selectLoop {β : Type} (score : β → ℚ) :
    List β → Option (ℚ × β) → Option (ℚ × β)
  | [], acc => acc
  | x :: xs, acc =>
    match acc with
    | none => selectLoop score xs (some (score x, x))
    | some (v, b) =>
      if score x > v then selectLoop score xs (some (score x, x))
      else selectLoop score xs (some (v, b))

/-- The UCT1 score of `TreeNode::best_child`:
`child.q / child.n + c * (2 * ln(parent_n) / child.n).sqrt()`, with the f32
functions `sqrt` and `ln` abstract (`sq`, `lg`). -/
def uctScore {A : Type} (sq lg : ℚ → ℚ) (c : ℚ) (parent_n : ℚ)
    (child : TreeNode A) : ℚ :=
  child.q / child.n + c * sq (2 * lg parent_n / child.n)

/-- `TreeNode::best_child(c)` from `src/mcts.rs`. -/
def TreeNode.best_child {A : Type} (sq lg : ℚ → ℚ) (c : ℚ) (t : TreeNode A) :
    Option (TreeNode A) :=
  (selectLoop (uctScore sq lg c t.n) t.children none).map Prod.snd

/-- Index-carrying variant of `best_child`, used by `iteration` to model the
`&mut` reference into the children vector that the source mutates through. -/
def TreeNode.best_child_idx {A : Type} (sq lg : ℚ → ℚ) (c : ℚ)
    (t : TreeNode A) : Option (ℕ × TreeNode A) :=
  (selectLoop (fun p => uctScore sq lg c t.n p.2) t.children.enum none).map
    Prod.snd

/-- The result of `selectLoop` is the accumulator or an element of the list,
paired with its score. -/
theorem selectLoop_eq_acc_or_mem {β : Type} (score : β → ℚ) :
    ∀ (xs : List β) (acc : Option (ℚ × β)) (p : ℚ × β),
      selectLoop score xs acc = some p →
      acc = some p ∨ ∃ x ∈ xs, p = (score x, x) := by
  intro xs
  induction xs with
  | nil => intro acc p h; exact Or.inl (by simpa [selectLoop] using h)
  | cons x xs ih =>
    intro acc p h
    match acc with
    | none =>
      rcases ih _ _ (by simpa [selectLoop] using h) with h' | ⟨y, hy, hp⟩
      · exact Or.inr ⟨x, List.mem_cons_self x xs, (Option.some.inj h').symm⟩
      · exact Or.inr ⟨y, List.mem_cons_of_mem x hy, hp⟩
    | some (v, b) =>
      by_cases hgt : score x > v
      · rcases ih _ _ (by simpa [selectLoop, hgt] using h) with h' | ⟨y, hy, hp⟩
        · exact Or.inr ⟨x, List.mem_cons_self x xs, (Option.some.inj h').symm⟩
        · exact Or.inr ⟨y, List.mem_cons_of_mem x hy, hp⟩
      · rcases ih _ _ (by simpa [selectLoop, hgt] using h) with h' | ⟨y, hy, hp⟩
        · exact Or.inl (Option.some.inj h' ▸ rfl)
        · exact Or.inr ⟨y, List.mem_cons_of_mem x hy, hp⟩

/-- A pair returned by `best_child_idx` is an indexed child. -/
theorem TreeNode.best_child_idx_mem {A : Type} {sq lg : ℚ → ℚ} {c : ℚ}
    {t : TreeNode A} {i : ℕ} {ch : TreeNode A}
    (h : t.best_child_idx sq lg c = some (i, ch)) :
    (i, ch) ∈ t.children.enum := by
  unfold TreeNode.best_child_idx at h
  rcases Option.map_eq_some'.mp h with ⟨⟨v, p⟩, hp, hsnd⟩
  rcases selectLoop_eq_acc_or_mem _ _ _ _ hp with h' | ⟨x, hx, hxp⟩
  · exact absurd h' (by simp)
  · cases hxp; simpa [← hsnd] using hx

/-- The child selected by `best_child_idx` is a child (termination measure). -/
theorem TreeNode.best_child_idx_mem_children {A : Type} {sq lg : ℚ → ℚ}
    {c : ℚ} {t : TreeNode A} {i : ℕ} {ch : TreeNode A}
    (h : t.best_child_idx sq lg c = some (i, ch)) : ch ∈ t.children := by
  have := TreeNode.best_child_idx_mem h
  exact List.mem_iff_get.mpr (by
    rcases List.mk_mem_enum_iff_getElem?.mp this with hget
    rcases List.getElem?_eq_some.mp hget with ⟨hlt, hv⟩
    exact ⟨⟨i, hlt⟩, by simpa using hv⟩)

/-- Sanity: `best_child` is the second component of `best_child_idx`. -/
theorem TreeNode.best_child_eq_idx {A : Type} (sq lg : ℚ → ℚ) (c : ℚ)
    (t : TreeNode A) :
    t.best_child sq lg c = (t.best_child_idx sq lg c).map Prod.snd := by
  unfold TreeNode.best_child TreeNode.best_child_idx
  have key : ∀ (xs : List (TreeNode A)) (j : ℕ)
      (acc2 : Option (ℚ × ℕ × TreeNode A)),
      (selectLoop (uctScore sq lg c t.n) xs
          (acc2.map (fun p => (p.1, p.2.2)))).map Prod.snd
        = (selectLoop (fun p => uctScore sq lg c t.n p.2) (xs.enumFrom j)
            acc2).map (Prod.snd ∘ Prod.snd) := by
    intro xs
    induction xs with
    | nil => intro j acc2; cases acc2 <;> simp [selectLoop, List.enumFrom]
    | cons x xs ih =>
      intro j acc2
      match acc2 with
      | none =>
        simpa [selectLoop, List.enumFrom] using
          ih (j + 1) (some (uctScore sq lg c t.n x, j, x))
      | some (v, m, b) =>
        by_cases hgt : uctScore sq lg c t.n x > v
        · simpa [selectLoop, List.enumFrom, hgt] using
            ih (j + 1) (some (uctScore sq lg c t.n x, j, x))
        · simpa [selectLoop, List.enumFrom, hgt] using ih (j + 1) (some (v, m, b))
  simpa [List.enum] using key t.children 0 none

/-- In-place update of the element at index `i` (a Rust mutation through a
`&mut` reference into a vector). Out-of-range indices leave the list
unchanged (the source never produces them). -/
def listModify {α : Type} (f : α → α) : ℕ → List α → List α
  | _, [] => []
  | 0, x :: xs => f x :: xs
  | i + 1, x :: xs => x :: listModify f i xs

/-- The `child_actions` collection loop of `TreeNode::expand`: the action of
every child in order, `none` modelling the
`expect("Child node without action")` panic. -/
def childActions {A : Type} : List (TreeNode A) → Option (List A)
  | [] => some []
  | c :: cs =>
    match c.action with
    | none => none
    | some a =>
      match childActions cs with
      | none => none
      | some rest => some (a :: rest)

/-- `TreeNode::expand(game)` from `src/mcts.rs`. `r` is the oracle value for
the single `choose_random` call. Returns `none` on panic (a child without an
action, or `choose_random` of an empty candidate vector); otherwise
`some (t', newAction?)` where `newAction? = none` models the Rust `None`
return (the node became a leaf) and `some a` records the appended child's
action (the Rust `Some(&mut child)` return). -/
def TreeNode.expand {S A : Type} [DecidableEq A] (g : GameDef S A) (r : ℕ)
    (s : S) (t : TreeNode A) : Option (TreeNode A × Option A) :=
  let allowed_actions := g.allowed_actions s
  if allowed_actions.length = 0 then
    some (.mk t.action t.children NodeState.LeafNode t.n t.q, none)
  else
    match childActions t.children with
    | none => none
    | some child_actions =>
      let candidate_actions :=
        allowed_actions.filter (fun a => decide (a ∉ child_actions))
      let st' := if candidate_actions.length = 1 then NodeState.FullyExpanded
                 else t.state
      match choose_random r candidate_actions with
      | none => none
      | some action =>
        some (.mk t.action (t.children ++ [TreeNode.new (some action)]) st'
                t.n t.q, some action)

/-- `TreeNode::iteration(game, c)` from `src/mcts.rs`: one full MCTS pass
(selection / expansion / simulation / backpropagation). Returns the updated
node, the backpropagated `delta` and the advanced oracle position; `none`
models the panics (`best_child(c).unwrap()` on a childless node,
`action.unwrap()` on an action-less child, a panicking `expand`). `fuel`
bounds the embedded playout. -/
def TreeNode.iteration {S A : Type} [DecidableEq A] (g : GameDef S A)
    (sq lg : ℚ → ℚ) (c : ℚ) (rng : ℕ → ℕ) (fuel : ℕ) (k : ℕ)
    (t : TreeNode A) (s : S) : Option (TreeNode A × ℚ × ℕ) :=
  match t.state with
  | NodeState.LeafNode =>
    let delta := g.reward s
    some (.mk t.action t.children t.state (t.n + 1) (t.q + delta), delta, k)
  | NodeState.FullyExpanded =>
    match h : t.best_child_idx sq lg c with
    | none => none
    | some (i, child) =>
      match child.action with
      | none => none
      | some a =>
        match TreeNode.iteration g sq lg c rng fuel k child (g.make_move s a)
        with
        | none => none
        | some (childRes, delta, kRes) =>
          some (.mk t.action (t.children.set i childRes) t.state (t.n + 1)
                  (t.q + delta), delta, kRes)
  | NodeState.Expandable =>
    match t.expand g (rng k) s with
    | none => none
    | some (t1, none) =>
      let delta := g.reward s
      some (.mk t1.action t1.children t1.state (t1.n + 1) (t1.q + delta),
            delta, k + 1)
    | some (t1, some a) =>
      let sk := playoutAux g rng fuel (k + 1) (g.make_move s a)
      let delta := g.reward sk.1
      let t2 : TreeNode A :=
        .mk t1.action
          (listModify
            (fun ch => .mk ch.action ch.children ch.state (ch.n + 1)
              (ch.q + delta))
            (t1.children.length - 1) t1.children)
          t1.state t1.n t1.q
      some (.mk t2.action t2.children t2.state (t2.n + 1) (t2.q + delta),
            delta, sk.2)
termination_by sizeOf t
decreasing_by exact TreeNode.sizeOf_mem_children (TreeNode.best_child_idx_mem_children h)

/-- The ensemble coordinator, from `struct MCTS<G, A>` in `src/mcts.rs`:
one root and one stored game clone per ensemble member, plus the
`iterations_per_s` estimate used by `search_time`. -/
structure MCTS (S A : Type) where
  roots : List (TreeNode A)
  games : List S
  iterations_per_s : ℚ

/-- `MCTS::new(game, ensamble_size)` from `src/mcts.rs`: for each
`i < ensamble_size`, a clone of `game` reseeded with `set_rng_seed(i as u32)`
(the cast is `i % 2^32`), paired with a fresh root; `iterations_per_s`
starts at `1`. -/
def MCTS.new {S A : Type} (g : GameDef S A) (game : S) (ensamble_size : ℕ) :
    MCTS S A :=
  { roots := List.replicate ensamble_size (TreeNode.new none)
  , games := (List.range ensamble_size).map
      (fun i => g.set_rng_seed game (i % 2 ^ 32))
  , iterations_per_s := 1 }

/-- `MCTS::tree_statistics` from `src/mcts.rs`: merge the per-root summaries
(the ensemble is treated as one extra tree layer, as the source comments). -/
def MCTS.tree_statistics {S A : Type} (m : MCTS S A) : TreeStatistics :=
  TreeStatistics.merge (m.roots.map TreeNode.tree_statistics)

/-- `MCTS::advance_game(game)` from `src/mcts.rs`: rebuild every
`(root, clone)` pair from the new state exactly as in `new`, with
`ensamble_size = self.games.len()`; `iterations_per_s` is not touched. -/
def MCTS.advance_game {S A : Type} (m : MCTS S A) (g : GameDef S A) (game : S) :
    MCTS S A :=
  { roots := List.replicate m.games.length (TreeNode.new none)
  , games := (List.range m.games.length).map
      (fun i => g.set_rng_seed game (i % 2 ^ 32))
  , iterations_per_s := m.iterations_per_s }

/-- The inner loop of `MCTS::search`: `n_samples` iterations on one member's
root, each on a fresh clone of that member's stored game state `s` (the
`let mut this_game = game.clone()` of the source). -/
def searchMember {S A : Type} [DecidableEq A] (g : GameDef S A)
    (sq lg : ℚ → ℚ) (c : ℚ) (rng : ℕ → ℕ) (fuel : ℕ) (s : S) :
    ℕ → ℕ → TreeNode A → Option (TreeNode A × ℕ)
  | 0, k, root => some (root, k)
  | ns + 1, k, root =>
    match TreeNode.iteration g sq lg c rng fuel k root s with
    | none => none
    | some (root', _, k') => searchMember g sq lg c rng fuel s ns k' root'

/-- The outer loop of `MCTS::search` over ensemble members
(`for e in 0..ensamble_size` with `ensamble_size = games.len()`): roots
beyond `games.len()` are left untouched, and a missing root (`roots[e]`
out of bounds) is the index panic, modelled by `none`. -/
def searchGo {S A : Type} [DecidableEq A] (g : GameDef S A) (sq lg : ℚ → ℚ)
    (c : ℚ) (rng : ℕ → ℕ) (fuel : ℕ) (n_samples : ℕ) :
    List (TreeNode A) → List S → ℕ → Option (List (TreeNode A) × ℕ)
  | roots, [], k => some (roots, k)
  | [], _ :: _, _ => none
  | root :: roots, s :: games, k =>
    match searchMember g sq lg c rng fuel s n_samples k root with
    | none => none
    | some (root', k') =>
      match searchGo g sq lg c rng fuel n_samples roots games k' with
      | none => none
      | some (roots', k'') => some (root' :: roots', k'')

/-- `MCTS::search(n_samples, c)` from `src/mcts.rs`. -/
def MCTS.search {S A : Type} [DecidableEq A] (g : GameDef S A)
    (sq lg : ℚ → ℚ) (m : MCTS S A) (n_samples : ℕ) (c : ℚ) (rng : ℕ → ℕ)
    (fuel : ℕ) (k : ℕ) : Option (MCTS S A × ℕ) :=
  match searchGo g sq lg c rng fuel n_samples m.roots m.games k with
  | none => none
  | some (roots', k') =>
    some ({ roots := roots', games := m.games
          , iterations_per_s := m.iterations_per_s }, k')

/-- Add `(dn, dq)` to action `a`'s entry of the per-action `(n, q)` table,
inserting a zero-initialised entry first if absent (the
`entry(action).or_insert(0.)` pair of `MCTS::best_action`). The `HashMap`
is modelled as an insertion-ordered association list; no proved property
depends on the iteration order. -/
def tableAdd {A : Type} [DecidableEq A] (a : A) (dn dq : ℚ) :
    List (A × ℚ × ℚ) → List (A × ℚ × ℚ)
  | [] => [(a, dn, dq)]
  | (b, n, q) :: rest =>
    if a = b then (b, n + dn, q + dq) :: rest
    else (b, n, q) :: tableAdd a dn dq rest

/-- Accumulate the direct children of one root into the per-action table;
`none` models the `child.action.unwrap()` panic. -/
def collectChildren {A : Type} [DecidableEq A] :
    List (TreeNode A) → List (A × ℚ × ℚ) → Option (List (A × ℚ × ℚ))
  | [], acc => some acc
  | child :: rest, acc =>
    match child.action with
    | none => none
    | some a => collectChildren rest (tableAdd a child.n child.q acc)

/-- Accumulate the children of every ensemble root into the per-action
table (the double loop of `MCTS::best_action`). -/
def collectRoots {A : Type} [DecidableEq A] :
    List (TreeNode A) → List (A × ℚ × ℚ) → Option (List (A × ℚ × ℚ))
  | [], acc => some acc
  | root :: roots, acc =>
    match collectChildren root.children acc with
    | none => none
    | some acc' => collectRoots roots acc'

/-- `MCTS::best_action` from `src/mcts.rs`: merge per-action `(n, q)` sums
across all ensemble roots' children, then select the action of maximal mean
`q / n` with the same strict-improvement loop as `best_child`. The outer
`Option` models panics; the inner one is the source's `Option<A>` result. -/
def MCTS.best_action {S A : Type} [DecidableEq A] (m : MCTS S A) :
    Option (Option A) :=
  match collectRoots m.roots [] with
  | none => none
  | some table =>
    some ((selectLoop (fun p => p.2.2 / p.2.1) table none).map (fun p => p.2.1))

/-- The allowed actions of `s` not yet represented among the children of `t`
(the `candidate_actions` of `TreeNode::expand`, phrased without the
intermediate `child_actions` vector). -/
def untriedActions {S A : Type} [DecidableEq A] (g : GameDef S A) (s : S)
    (t : TreeNode A) : List A :=
  (g.allowed_actions s).filter
    (fun a => decide (a ∉ t.children.filterMap TreeNode.action))

/-- Specification sum: the total visit count recorded for action `a` among
the direct children of the given roots (what `best_action` aggregates). -/
def actionN {A : Type} [DecidableEq A] (roots : List (TreeNode A)) (a : A) :
    ℚ :=
  ((((roots.map TreeNode.children).flatten).filter
      (fun c => decide (c.action = some a))).map TreeNode.n).sum

/-- Specification sum: the total value recorded for action `a` among the
direct children of the given roots. -/
def actionQ {A : Type} [DecidableEq A] (roots : List (TreeNode A)) (a : A) :
    ℚ :=
  ((((roots.map TreeNode.children).flatten).filter
      (fun c => decide (c.action = some a))).map TreeNode.q).sum

/-- The `n` sum stored for key `a` in a per-action table. -/
def tableN {A : Type} [DecidableEq A] (table : List (A × ℚ × ℚ)) (a : A) :
    ℚ :=
  ((table.filter (fun p => decide (p.1 = a))).map (fun p => p.2.1)).sum

/-- The `q` sum stored for key `a` in a per-action table. -/
def tableQ {A : Type} [DecidableEq A] (table : List (A × ℚ × ℚ)) (a : A) :
    ℚ :=
  ((table.filter (fun p => decide (p.1 = a))).map (fun p => p.2.2)).sum

/-- A toy game with no legal action in any state: every state is terminal,
reward `0` (used to instantiate theorems at concrete inputs). -/
def trivGame : GameDef Unit Unit :=
  { allowed_actions := fun _ => []
  , make_move := fun s _ => s
  , reward := fun _ => 0
  , set_rng_seed := fun s _ => s }

/-- A toy game whose single action `()` is always allowed (used to
instantiate `expand` at concrete inputs). -/
def oneActionGame : GameDef Unit Unit :=
  { allowed_actions := fun _ => [()]
  , make_move := fun s _ => s
  , reward := fun _ => 0
  , set_rng_seed := fun s _ => s }

/-! ## Properties of the selection loop -/

/-- From a `some` accumulator the loop always returns `some`. -/
theorem selectLoop_acc_isSome {β : Type} (score : β → ℚ) :
    ∀ (xs : List β) (v : ℚ) (b : β),
      (selectLoop score xs (some (v, b))).isSome = true := by
  intro xs
  induction xs with
  | nil => intro v b; simp [selectLoop]
  | cons x xs ih =>
    intro v b
    by_cases hgt : score x > v
    · simpa [selectLoop, hgt] using ih (score x) x
    · simpa [selectLoop, hgt] using ih v b

/-- Starting from the `NEG_INFINITY` accumulator, the loop returns `none`
exactly on the empty list. -/
theorem selectLoop_none_eq_none_iff {β : Type} (score : β → ℚ)
    (xs : List β) : selectLoop score xs none = none ↔ xs = [] := by
  cases xs with
  | nil => simp [selectLoop]
  | cons x xs =>
    constructor
    · intro h
      have hs := selectLoop_acc_isSome score xs (score x) x
      rw [show selectLoop score (x :: xs) none
            = selectLoop score xs (some (score x, x)) from rfl] at h
      rw [h] at hs
      cases hs
    · intro h; cases h

/-- Accumulator invariant of the selection loop: either the accumulator
survives (everything scored no better), or the loop returns the first
element strictly beating the accumulator and everything before it, with
nothing after it scoring strictly better. -/
theorem selectLoop_acc_spec {β : Type} (score : β → ℚ) :
    ∀ (xs : List β) (v : ℚ) (b : β),
      (selectLoop score xs (some (v, b)) = some (v, b) ∧
        ∀ x ∈ xs, score x ≤ v) ∨
      (∃ b' l₁ l₂, selectLoop score xs (some (v, b)) = some (score b', b') ∧
        xs = l₁ ++ b' :: l₂ ∧ v < score b' ∧
        (∀ x ∈ l₁, score x < score b') ∧ (∀ x ∈ l₂, score x ≤ score b')) := by
  intro xs
  induction xs with
  | nil => intro v b; exact Or.inl ⟨rfl, by simp⟩
  | cons x xs ih =>
    intro v b
    by_cases hgt : score x > v
    · have hstep : selectLoop score (x :: xs) (some (v, b))
          = selectLoop score xs (some (score x, x)) := by
        simp [selectLoop, hgt]
      rcases ih (score x) x with ⟨heq, hall⟩ | ⟨b', l₁, l₂, heq, hxs, hlt, h₁, h₂⟩
      · exact Or.inr ⟨x, [], xs, by rw [hstep, heq], rfl, hgt, by simp, hall⟩
      · refine Or.inr ⟨b', x :: l₁, l₂, by rw [hstep, heq], by rw [hxs, List.cons_append], ?_, ?_, h₂⟩
        · exact lt_trans hgt hlt
        · intro y hy
          rcases List.mem_cons.mp hy with h | h
          · subst h; exact hlt
          · exact h₁ y h
    · have hstep : selectLoop score (x :: xs) (some (v, b))
          = selectLoop score xs (some (v, b)) := by
        simp [selectLoop, hgt]
      rcases ih v b with ⟨heq, hall⟩ | ⟨b', l₁, l₂, heq, hxs, hlt, h₁, h₂⟩
      · refine Or.inl ⟨by rw [hstep, heq], ?_⟩
        intro y hy
        rcases List.mem_cons.mp hy with h | h
        · subst h; exact le_of_not_lt hgt
        · exact hall y h
      · refine Or.inr ⟨b', x :: l₁, l₂, by rw [hstep, heq], by rw [hxs, List.cons_append], hlt, ?_, h₂⟩
        intro y hy
        rcases List.mem_cons.mp hy with h | h
        · subst h; exact lt_of_le_of_lt (le_of_not_lt hgt) hlt
        · exact h₁ y h

/-- The selection loop returns the first element attaining the maximal
score: everything before it scores strictly less, everything after it
scores no better. -/
theorem selectLoop_first_max {β : Type} (score : β → ℚ) (xs : List β)
    (v : ℚ) (b : β) (h : selectLoop score xs none = some (v, b)) :
    v = score b ∧ ∃ l₁ l₂, xs = l₁ ++ b :: l₂ ∧
      (∀ x ∈ l₁, score x < score b) ∧ (∀ x ∈ l₂, score x ≤ score b) := by
  cases xs with
  | nil => cases h
  | cons x xs =>
    rw [show selectLoop score (x :: xs) none
          = selectLoop score xs (some (score x, x)) from rfl] at h
    rcases selectLoop_acc_spec score xs (score x) x with
      ⟨heq, hall⟩ | ⟨b', l₁, l₂, heq, hxs, hlt, h₁, h₂⟩
    · rw [heq] at h
      obtain ⟨hv, hb⟩ : v = score x ∧ b = x := by
        have hinj := Option.some.inj h
        exact ⟨(congrArg Prod.fst hinj).symm, (congrArg Prod.snd hinj).symm⟩
      subst hb; subst hv
      exact ⟨rfl, [], xs, rfl, by simp, hall⟩
    · rw [heq] at h
      obtain ⟨hv, hb⟩ : v = score b' ∧ b = b' := by
        have hinj := Option.some.inj h
        exact ⟨(congrArg Prod.fst hinj).symm, (congrArg Prod.snd hinj).symm⟩
      subst hb; subst hv
      refine ⟨rfl, x :: l₁, l₂, by rw [hxs, List.cons_append], ?_, h₂⟩
      intro y hy
      rcases List.mem_cons.mp hy with h' | h'
      · subst h'; exact hlt
      · exact h₁ y h'

/-! ## C3: selection correctness of `best_child` -/

/-- C3: `best_child(c)` scores every direct child as
`q/n + c * sqrt(2 * ln(parent.n) / n)` and returns the child attaining the
maximal score, ties resolving to the first child in iteration order (the
decomposition `children = l₁ ++ ch :: l₂` with everything in `l₁` scored
strictly below `ch` and everything in `l₂` scored no better); a childless
node yields no result; and with `c = 0` (children and parent visited at
least once) it returns the child of strictly maximal `q/n`. -/
theorem c3_best_child_spec {A : Type} (sq lg : ℚ → ℚ) (c : ℚ)
    (t : TreeNode A) :
    (t.children = [] → t.best_child sq lg c = none) ∧
    (∀ ch, t.best_child sq lg c = some ch →
      ∃ l₁ l₂, t.children = l₁ ++ ch :: l₂ ∧
        (∀ x ∈ l₁, uctScore sq lg c t.n x < uctScore sq lg c t.n ch) ∧
        (∀ x ∈ l₂, uctScore sq lg c t.n x ≤ uctScore sq lg c t.n ch)) ∧
    (∀ ch ∈ t.children, 1 ≤ t.n → (∀ x ∈ t.children, 1 ≤ x.n) →
      (∀ x ∈ t.children, x = ch ∨ x.q / x.n < ch.q / ch.n) →
      t.best_child sq lg 0 = some ch) := by
  refine ⟨?_, ?_, ?_⟩
  · intro h
    unfold TreeNode.best_child
    rw [h]
    rfl
  · intro ch h
    unfold TreeNode.best_child at h
    rcases Option.map_eq_some'.mp h with ⟨⟨v, b⟩, hloop, hsnd⟩
    cases hsnd
    rcases selectLoop_first_max _ _ _ _ hloop with ⟨-, l₁, l₂, hdec, h₁, h₂⟩
    exact ⟨l₁, l₂, hdec, h₁, h₂⟩
  · intro ch hch _hparent _hchildn hmax
    have hscore : ∀ x : TreeNode A, uctScore sq lg 0 t.n x = x.q / x.n := by
      intro x; simp [uctScore]
    unfold TreeNode.best_child
    have hne : t.children ≠ [] := by
      intro h; rw [h] at hch; cases hch
    obtain ⟨⟨v, b⟩, hloop⟩ :
        ∃ p, selectLoop (uctScore sq lg 0 t.n) t.children none = some p := by
      cases hres : selectLoop (uctScore sq lg 0 t.n) t.children none with
      | none => exact absurd ((selectLoop_none_eq_none_iff _ _).mp hres) hne
      | some p => exact ⟨p, rfl⟩
    rcases selectLoop_first_max _ _ _ _ hloop with ⟨-, l₁, l₂, hdec, h₁, h₂⟩
    have hbch : b = ch := by
      rcases hmax b (hdec ▸ List.mem_append_right l₁ (List.mem_cons_self b l₂))
        with h | hblt
      · exact h
      · exfalso
        have hchle : uctScore sq lg 0 t.n ch ≤ uctScore sq lg 0 t.n b := by
          rw [hdec] at hch
          rcases List.mem_append.mp hch with hin | hin
          · exact le_of_lt (h₁ ch hin)
          · rcases List.mem_cons.mp hin with h | hin
            · rw [h]
            · exact h₂ ch hin
        rw [hscore, hscore] at hchle
        exact absurd (lt_of_le_of_lt hchle hblt) (lt_irrefl _)
    rw [hloop, hbch]
    rfl

/-- C3 witness: on a parent with two once-visited children where the second
has the strictly larger mean value, `best_child` with `c = 0` returns that
second child. -/
theorem c3_best_child_witness :
    (TreeNode.mk (some 1) [] NodeState.Expandable 1 1)
        ∈ (TreeNode.mk (none : Option ℕ)
            [TreeNode.mk (some 0) [] NodeState.Expandable 1 0,
             TreeNode.mk (some 1) [] NodeState.Expandable 1 1]
            NodeState.Expandable 2 0).children ∧
    (TreeNode.mk (none : Option ℕ)
        [TreeNode.mk (some 0) [] NodeState.Expandable 1 0,
         TreeNode.mk (some 1) [] NodeState.Expandable 1 1]
        NodeState.Expandable 2 0).best_child id id 0
      = some (TreeNode.mk (some 1) [] NodeState.Expandable 1 1) := by
  have hmem : (TreeNode.mk (some 1) [] NodeState.Expandable 1 1)
      ∈ (TreeNode.mk (none : Option ℕ)
          [TreeNode.mk (some 0) [] NodeState.Expandable 1 0,
           TreeNode.mk (some 1) [] NodeState.Expandable 1 1]
          NodeState.Expandable 2 0).children := by
    simp [TreeNode.children]
  refine ⟨hmem, (c3_best_child_spec id id 0 _).2.2 _ hmem ?_ ?_ ?_⟩
  · show (1 : ℚ) ≤ 2; norm_num
  · intro x hx
    simp only [TreeNode.children, List.mem_cons, List.not_mem_nil, or_false]
      at hx
    rcases hx with h | h <;> subst h <;> show (1 : ℚ) ≤ 1 <;> norm_num
  · intro x hx
    simp only [TreeNode.children, List.mem_cons, List.not_mem_nil, or_false]
      at hx
    rcases hx with h | h
    · subst h
      right
      show (0 : ℚ) / 1 < 1 / 1
      norm_num
    · subst h; left; rfl

/-! ## C1 and C2: the tree-statistics algebra -/

/-- A fresh node reports `{1, 0, 0}`. -/
theorem tree_statistics_new {A : Type} (a : Option A) :
    (TreeNode.new a).tree_statistics = ⟨1, 0, 0⟩ := by
  rw [TreeNode.tree_statistics_def]
  rfl

/-- Sum fold over `k` copies of `{1,0,0}`. -/
theorem foldl_nodes_replicate (k : ℕ) :
    ∀ init : ℤ,
      ((List.replicate k (⟨1, 0, 0⟩ : TreeStatistics)).foldl
        (fun sum child => sum + child.nodes) init) = init + k := by
  induction k with
  | zero => intro init; simp
  | succ k ih =>
    intro init
    rw [List.replicate_succ, List.foldl_cons, ih]
    push_cast
    ring

/-- Min fold over `k ≥ 1` copies of `{1,0,0}`. -/
theorem foldl_min_replicate (k : ℕ) (hk : 1 ≤ k) :
    ∀ init : ℤ, 0 ≤ init →
      ((List.replicate k (⟨1, 0, 0⟩ : TreeStatistics)).foldl
        (fun depth child => min depth child.min_depth) init) = 0 := by
  induction k with
  | zero => omega
  | succ k ih =>
    intro init hinit
    rw [List.replicate_succ, List.foldl_cons]
    rcases Nat.eq_or_lt_of_le hk with h | h
    · have hk0 : k = 0 := by omega
      subst hk0
      simp [min_eq_right hinit]
    · exact ih (by omega) (min init 0) (by simp [min_eq_right hinit])

/-- Max fold over `k ≥ 1` copies of `{1,0,0}`. -/
theorem foldl_max_replicate (k : ℕ) (hk : 1 ≤ k) :
    ∀ init : ℤ, init ≤ 0 →
      ((List.replicate k (⟨1, 0, 0⟩ : TreeStatistics)).foldl
        (fun depth child => max depth child.max_depth) init) = 0 := by
  induction k with
  | zero => omega
  | succ k ih =>
    intro init hinit
    rw [List.replicate_succ, List.foldl_cons]
    rcases Nat.eq_or_lt_of_le hk with h | h
    · have hk0 : k = 0 := by omega
      subst hk0
      simp [max_eq_right hinit]
    · exact ih (by omega) (max init 0) (by simp [max_eq_right hinit])

/-- Merging `k ≥ 1` fresh-root summaries gives `{k, 1, 1}`: the node count
is the plain sum (the merging layer is not counted) and each depth gains
one layer. -/
theorem merge_replicate_fresh (k : ℕ) (hk : 1 ≤ k) :
    TreeStatistics.merge (List.replicate k ⟨1, 0, 0⟩) = ⟨(k : ℤ), 1, 1⟩ := by
  unfold TreeStatistics.merge
  rw [if_neg (by simp; omega)]
  rw [foldl_nodes_replicate,
    foldl_min_replicate k hk i32MAX (by unfold i32MAX; omega),
    foldl_max_replicate k hk 0 (le_refl 0)]
  simp

/-- C1: evaluation at the failing input. The spec's merge algebra demands
`node_count = 1 + Σ child node_count`, so a root with a single childless
child should report `{2, 1, 1}`; `TreeStatistics::merge` computes the plain
sum `Σ child.nodes` (no `1 +`, unlike both depth fields), so the code
reports `{1, 1, 1}` — `merge` of one summary `{1,0,0}` likewise yields
`{1, 1, 1}` instead of the claimed `{2, 1, 1}`. The `nodes` field therefore
counts leaves, contradicting the source's own comment on
`MCTS::tree_statistics` that node counts come out "one too large" when the
ensemble adds a layer. -/
theorem c1_merge_drops_merging_node :
    TreeStatistics.merge [⟨1, 0, 0⟩] = ⟨1, 1, 1⟩ ∧
    (TreeNode.mk (none : Option Unit) [TreeNode.new (some ())]
        NodeState.Expandable 0 0).tree_statistics = ⟨1, 1, 1⟩ ∧
    (TreeNode.new (none : Option Unit)).tree_statistics = ⟨1, 0, 0⟩ := by
  refine ⟨by decide, ?_, tree_statistics_new none⟩
  rw [TreeNode.tree_statistics_def]
  show TreeStatistics.merge
    (List.map TreeNode.tree_statistics [TreeNode.new (some ())]) = _
  rw [List.map_singleton, tree_statistics_new]
  decide

/-- C2 counterexample: with ensemble size 1 and any game, immediately after
`advance_game` the coordinator's `tree_statistics()` is `{1, 1, 1}`, not the
claimed `{ensemble_size, 0, 0} = {1, 0, 0}`: the min/max depths are 1, not
0, because `MCTS::tree_statistics` merges the fresh roots' `{1,0,0}`
summaries through `TreeStatistics::merge`, which adds a layer to both depth
fields (the node count equals the ensemble size only because `merge` drops
the merging layer from the count, see C1). -/
theorem c2_advance_game_depth_counterexample :
    ((MCTS.new trivGame () 1).advance_game trivGame ()).tree_statistics
      = ⟨1, 1, 1⟩ ∧
    ¬ (((MCTS.new trivGame () 1).advance_game trivGame ()).tree_statistics
        = ⟨1, 0, 0⟩) := by
  have h : ((MCTS.new trivGame () 1).advance_game trivGame ()).tree_statistics
      = ⟨1, 1, 1⟩ := by
    unfold MCTS.tree_statistics
    show TreeStatistics.merge
      (List.map TreeNode.tree_statistics
        (List.replicate 1 (TreeNode.new none))) = _
    rw [List.map_replicate, tree_statistics_new]
    exact merge_replicate_fresh 1 (le_refl 1)
  exact ⟨h, by rw [h]; decide⟩

/-- C2 (amended): immediately after `advance_game` (ensemble size ≥ 1,
each root fresh with no children), `tree_statistics()` reports
`node_count = ensemble_size` and `min_depth = max_depth = 1` — one, not
zero, because the ensemble is merged as one extra tree layer. -/
theorem c2_advance_game_statistics {S A : Type} (g : GameDef S A)
    (m : MCTS S A) (game : S) (h : 1 ≤ m.games.length) :
    ((m.advance_game g game)).tree_statistics
      = ⟨(m.games.length : ℤ), 1, 1⟩ := by
  unfold MCTS.tree_statistics
  show TreeStatistics.merge
    (List.map TreeNode.tree_statistics
      (List.replicate m.games.length (TreeNode.new none))) = _
  rw [List.map_replicate, tree_statistics_new]
  exact merge_replicate_fresh _ h

/-- C2 witness: a two-member ensemble, right after `advance_game`, reports
two nodes at depth one. -/
theorem c2_advance_game_statistics_witness :
    1 ≤ (MCTS.new trivGame () 2).games.length ∧
    ((MCTS.new trivGame () 2).advance_game trivGame ()).tree_statistics
      = ⟨2, 1, 1⟩ := by
  have hlen : (MCTS.new trivGame () 2).games.length = 2 := by decide
  refine ⟨by rw [hlen]; omega, ?_⟩
  have := c2_advance_game_statistics trivGame (MCTS.new trivGame () 2) ()
    (by rw [hlen]; omega)
  rw [hlen] at this
  exact_mod_cast this

/-! ## C10: frame of `advance_game` -/

/-- C10: `advance_game(new_state)` preserves the ensemble size (the number
of rebuilt `(root, clone)` pairs is `games.len()` from before the call) and
leaves `iterations_per_s` unchanged; only the roots and stored game states
are replaced — member `i` holds the clone `set_rng_seed(new_state, i as u32)`
(the `u32` cast is `i % 2^32`) and a fresh childless root. -/
theorem c10_advance_game_frame {S A : Type} (g : GameDef S A) (m : MCTS S A)
    (game : S) :
    (m.advance_game g game).roots.length = m.games.length ∧
    (m.advance_game g game).games.length = m.games.length ∧
    (m.advance_game g game).iterations_per_s = m.iterations_per_s ∧
    (∀ i, i < m.games.length →
      (m.advance_game g game).games[i]?
          = some (g.set_rng_seed game (i % 2 ^ 32)) ∧
      (m.advance_game g game).roots[i]? = some (TreeNode.new none)) := by
  refine ⟨by simp [MCTS.advance_game], by simp [MCTS.advance_game], rfl, ?_⟩
  intro i hi
  constructor
  · show ((List.range m.games.length).map
        (fun i => g.set_rng_seed game (i % 2 ^ 32)))[i]? = _
    rw [List.getElem?_map, List.getElem?_range hi]
    rfl
  · show (List.replicate m.games.length (TreeNode.new none))[i]? = _
    rw [List.getElem?_replicate, if_pos hi]

/-- C10 witness: a two-member ensemble after `advance_game`, member 1. -/
theorem c10_advance_game_frame_witness :
    1 < (MCTS.new trivGame () 2).games.length ∧
    ((MCTS.new trivGame () 2).advance_game trivGame ()).games[1]?
        = some (trivGame.set_rng_seed () (1 % 2 ^ 32)) ∧
    ((MCTS.new trivGame () 2).advance_game trivGame ()).roots[1]?
        = some (TreeNode.new none) :=
  ⟨by decide,
   (c10_advance_game_frame trivGame (MCTS.new trivGame () 2) ()).2.2.2 1
     (by decide)⟩

/-! ## C8: `search` never mutates the stored game states -/

/-- C8: whenever `search(n_samples, c)` returns, the stored game states are
exactly the values from before the call (and the rate estimate is
untouched): by construction every iteration runs on a fresh clone of the
member's stored state (`searchMember` passes the same stored `s` to every
iteration), and only `advance_game` replaces the `games` field. -/
theorem c8_search_preserves_games {S A : Type} [DecidableEq A]
    (g : GameDef S A) (sq lg : ℚ → ℚ) (m : MCTS S A) (n_samples : ℕ) (c : ℚ)
    (rng : ℕ → ℕ) (fuel k : ℕ) (m' : MCTS S A) (k' : ℕ)
    (h : MCTS.search g sq lg m n_samples c rng fuel k = some (m', k')) :
    m'.games = m.games ∧ m'.iterations_per_s = m.iterations_per_s := by
  unfold MCTS.search at h
  cases hgo : searchGo g sq lg c rng fuel n_samples m.roots m.games k with
  | none => rw [hgo] at h; cases h
  | some p =>
    obtain ⟨roots2, k2⟩ := p
    rw [hgo] at h
    cases h
    exact ⟨rfl, rfl⟩

/-- C8 witness: a concrete one-member, one-sample search succeeds and hands
back the stored game states unchanged. -/
theorem c8_search_preserves_games_witness :
    MCTS.search trivGame id id (MCTS.new trivGame () 1) 1 1 (fun _ => 0) 0 0
      = some ({ roots := [TreeNode.mk none [] NodeState.LeafNode 1 0]
              , games := [()], iterations_per_s := 1 }, 1) ∧
    ({ roots := [TreeNode.mk none [] NodeState.LeafNode 1 0]
     , games := [()], iterations_per_s := 1 } : MCTS Unit Unit).games
        = (MCTS.new trivGame () 1).games := by
  have heval : MCTS.search trivGame id id (MCTS.new trivGame () 1) 1 1
      (fun _ => 0) 0 0
      = some ({ roots := [TreeNode.mk none [] NodeState.LeafNode 1 0]
              , games := [()], iterations_per_s := 1 }, 1) := by
    unfold MCTS.search
    rw [show (MCTS.new trivGame () 1).roots = [TreeNode.new none] from rfl,
      show (MCTS.new trivGame () 1).games = [()] from rfl]
    rw [searchGo, searchMember, TreeNode.iteration]
    simp [TreeNode.expand, trivGame, TreeNode.new, TreeNode.state,
      TreeNode.action, TreeNode.children, TreeNode.n, TreeNode.q,
      searchMember, searchGo, MCTS.new]
  exact ⟨heval,
    (c8_search_preserves_games trivGame id id (MCTS.new trivGame () 1) 1 1
      (fun _ => 0) 0 0 _ 1 heval).1⟩

/-! ## C4: expansion -/

/-- When every child has an action, the Rust `expect` loop succeeds and
collects exactly the children's actions. -/
theorem childActions_eq_filterMap {A : Type} :
    ∀ cs : List (TreeNode A), (∀ c ∈ cs, c.action ≠ none) →
      childActions cs = some (cs.filterMap TreeNode.action) := by
  intro cs
  induction cs with
  | nil => intro _; rfl
  | cons c cs ih =>
    intro h
    cases hc : c.action with
    | none => exact absurd hc (h c (List.mem_cons_self c cs))
    | some a =>
      have hrest := ih (fun x hx => h x (List.mem_cons_of_mem c hx))
      simp [childActions, hc, hrest, List.filterMap_cons]

/-- Unfolding lemma for the non-terminal branch of `expand`. -/
theorem TreeNode.expand_eq_of {S A : Type} [DecidableEq A] {g : GameDef S A}
    (r : ℕ) {s : S} {t : TreeNode A}
    (hlen : ¬ (g.allowed_actions s).length = 0) {ca : List A}
    (hca : childActions t.children = some ca) :
    t.expand g r s =
      match choose_random r
          ((g.allowed_actions s).filter (fun a => decide (a ∉ ca))) with
      | none => none
      | some action =>
        some (.mk t.action (t.children ++ [TreeNode.new (some action)])
          (if ((g.allowed_actions s).filter
              (fun a => decide (a ∉ ca))).length = 1
            then NodeState.FullyExpanded else t.state) t.n t.q,
          some action) := by
  unfold TreeNode.expand
  rw [if_neg hlen, hca]

/-- A successfully chosen element belongs to the vector. -/
theorem choose_random_mem {α : Type} {r : ℕ} {l : List α} {a : α}
    (h : choose_random r l = some a) : a ∈ l :=
  List.get?_mem h

/-- Choosing from a one-element vector succeeds with that element. -/
theorem choose_random_singleton {α : Type} (r : ℕ) (a : α) :
    choose_random r [a] = some a := by
  simp [choose_random, Nat.mod_one]

/-- C4: `expand(game_state)` — with no allowed action the node becomes a
`LeafNode` and no child is returned; with allowed actions present (and
well-formed children), if exactly one allowed action is untried the node
becomes `FullyExpanded` while that child is appended; every appended child
is zero-initialised (`n = 0`, `q = 0`, `Expandable`) and carries an untried
allowed action, so children with pairwise-distinct actions stay
pairwise-distinct. -/
theorem c4_expand_spec {S A : Type} [DecidableEq A] (g : GameDef S A)
    (r : ℕ) (s : S) (t : TreeNode A) :
    (g.allowed_actions s = [] →
      t.expand g r s
        = some (.mk t.action t.children NodeState.LeafNode t.n t.q, none)) ∧
    (g.allowed_actions s ≠ [] → (∀ c ∈ t.children, c.action ≠ none) →
      ((untriedActions g s t).length = 1 →
        ∃ a, a ∈ untriedActions g s t ∧
          t.expand g r s
            = some (.mk t.action (t.children ++ [TreeNode.new (some a)])
                NodeState.FullyExpanded t.n t.q, some a)) ∧
      (∀ t' a, t.expand g r s = some (t', some a) →
        a ∈ untriedActions g s t ∧
        t'.children = t.children ++ [TreeNode.new (some a)] ∧
        (TreeNode.new (some a)).n = 0 ∧ (TreeNode.new (some a)).q = 0 ∧
        (TreeNode.new (some a)).state = NodeState.Expandable ∧
        ((t.children.filterMap TreeNode.action).Nodup →
          (t'.children.filterMap TreeNode.action).Nodup))) := by
  constructor
  · intro h
    unfold TreeNode.expand
    rw [if_pos (by rw [h]; rfl)]
  · intro hne hact
    have hlen : ¬ (g.allowed_actions s).length = 0 := by
      simpa [List.length_eq_zero] using hne
    have hca := childActions_eq_filterMap t.children hact
    have huntried : (g.allowed_actions s).filter
        (fun a => decide (a ∉ t.children.filterMap TreeNode.action))
          = untriedActions g s t := rfl
    have hexp_eq := TreeNode.expand_eq_of r hlen hca
    rw [huntried] at hexp_eq
    constructor
    · intro h1
      obtain ⟨a, ha⟩ := List.length_eq_one.mp h1
      refine ⟨a, by rw [ha]; exact List.mem_singleton_self a, ?_⟩
      rw [hexp_eq, ha, choose_random_singleton]
      rfl
    · intro t' a hexp
      rw [hexp_eq] at hexp
      cases hcr : choose_random r (untriedActions g s t) with
      | none => rw [hcr] at hexp; cases hexp
      | some a' =>
        rw [hcr] at hexp
        have hinj := Option.some.inj hexp
        have ha' : a' = a := by
          have := congrArg Prod.snd hinj
          simpa using this
        subst ha'
        have ht' : t' = .mk t.action
            (t.children ++ [TreeNode.new (some a')])
            (if (untriedActions g s t).length = 1
              then NodeState.FullyExpanded else t.state) t.n t.q := by
          have := congrArg Prod.fst hinj
          simpa using this.symm
        have hmem : a' ∈ untriedActions g s t := choose_random_mem hcr
        have hnot : a' ∉ t.children.filterMap TreeNode.action := by
          have := List.of_mem_filter hmem
          simpa using this
        refine ⟨hmem, by rw [ht']; rfl, rfl, rfl, rfl, ?_⟩
        intro hnd
        rw [ht']
        show (List.filterMap TreeNode.action
          (t.children ++ [TreeNode.new (some a')])).Nodup
        rw [List.filterMap_append]
        show (t.children.filterMap TreeNode.action ++ [a']).Nodup
        simp [List.nodup_append, hnd, hnot]

/-- C4 witness: expanding a fresh node on a terminal state marks it
`LeafNode` and returns no child. -/
theorem c4_expand_spec_witness :
    trivGame.allowed_actions () = [] ∧
    (TreeNode.new (none : Option Unit)).expand trivGame 0 ()
      = some (.mk none [] NodeState.LeafNode 0 0, none) :=
  ⟨rfl, (c4_expand_spec trivGame 0 () (TreeNode.new none)).1 rfl⟩


/-! ## C5: iteration bookkeeping -/

/-- `listModify` at the index just past `l` updates the appended element. -/
theorem listModify_append_singleton {α : Type} (f : α → α) (l : List α)
    (x : α) : listModify f l.length (l ++ [x]) = l ++ [f x] := by
  induction l with
  | nil => rfl
  | cons y l ih => simp [listModify, ih]

/-- Unfolding: `iteration` on a `LeafNode`. -/
theorem TreeNode.iteration_leaf {S A : Type} [DecidableEq A]
    (g : GameDef S A) (sq lg : ℚ → ℚ) (c : ℚ) (rng : ℕ → ℕ) (fuel k : ℕ)
    (t : TreeNode A) (s : S) (ht : t.state = NodeState.LeafNode) :
    TreeNode.iteration g sq lg c rng fuel k t s
      = some (.mk t.action t.children t.state (t.n + 1)
          (t.q + g.reward s), g.reward s, k) := by
  rw [TreeNode.iteration, ht]

/-- Unfolding: `iteration` on a `FullyExpanded` node. -/
theorem TreeNode.iteration_fully {S A : Type} [DecidableEq A]
    (g : GameDef S A) (sq lg : ℚ → ℚ) (c : ℚ) (rng : ℕ → ℕ) (fuel k : ℕ)
    (t : TreeNode A) (s : S) (ht : t.state = NodeState.FullyExpanded) :
    TreeNode.iteration g sq lg c rng fuel k t s
      = match t.best_child_idx sq lg c with
        | none => none
        | some (i, child) =>
          match child.action with
          | none => none
          | some a =>
            match TreeNode.iteration g sq lg c rng fuel k child
                (g.make_move s a) with
            | none => none
            | some (childRes, delta, kRes) =>
              some (.mk t.action (t.children.set i childRes) t.state
                (t.n + 1) (t.q + delta), delta, kRes) := by
  obtain ⟨a0, cs, st, n, q⟩ := t
  simp only [TreeNode.state] at ht
  subst ht
  rw [TreeNode.iteration]
  simp only [TreeNode.state]
  split
  · next hbc => rw [hbc]
  · next i child hbc => rw [hbc]

/-- Unfolding: `iteration` on an `Expandable` node. -/
theorem TreeNode.iteration_expandable {S A : Type} [DecidableEq A]
    (g : GameDef S A) (sq lg : ℚ → ℚ) (c : ℚ) (rng : ℕ → ℕ) (fuel k : ℕ)
    (t : TreeNode A) (s : S) (ht : t.state = NodeState.Expandable) :
    TreeNode.iteration g sq lg c rng fuel k t s
      = match t.expand g (rng k) s with
        | none => none
        | some (t1, none) =>
          some (.mk t1.action t1.children t1.state (t1.n + 1)
            (t1.q + g.reward s), g.reward s, k + 1)
        | some (t1, some a) =>
          some (.mk t1.action
            (listModify
              (fun ch => .mk ch.action ch.children ch.state (ch.n + 1)
                (ch.q + g.reward (playoutAux g rng fuel (k + 1)
                  (g.make_move s a)).1))
              (t1.children.length - 1) t1.children)
            t1.state (t1.n + 1)
            (t1.q + g.reward (playoutAux g rng fuel (k + 1)
              (g.make_move s a)).1),
            g.reward (playoutAux g rng fuel (k + 1) (g.make_move s a)).1,
            (playoutAux g rng fuel (k + 1) (g.make_move s a)).2) := by
  rw [TreeNode.iteration, ht]
  rfl

/-- A successful `expand` keeps the node's action, statistics and (modulo
the possibly appended child) children. -/
theorem TreeNode.expand_preserves {S A : Type} [DecidableEq A]
    {g : GameDef S A} {r : ℕ} {s : S} {t t' : TreeNode A} {res : Option A}
    (h : t.expand g r s = some (t', res)) :
    t'.action = t.action ∧ t'.n = t.n ∧ t'.q = t.q ∧
    (res = none → t'.children = t.children) ∧
    (∀ a, res = some a →
      t'.children = t.children ++ [TreeNode.new (some a)]) := by
  by_cases hlen : (g.allowed_actions s).length = 0
  · unfold TreeNode.expand at h
    rw [if_pos hlen] at h
    have hinj := (Option.some.inj h).symm
    have ht' : t' = .mk t.action t.children NodeState.LeafNode t.n t.q :=
      congrArg Prod.fst hinj
    have hres : res = none := congrArg Prod.snd hinj
    subst ht'
    refine ⟨rfl, rfl, rfl, fun _ => rfl, fun a ha => ?_⟩
    rw [hres] at ha; cases ha
  · cases hca : childActions t.children with
    | none =>
      unfold TreeNode.expand at h
      rw [if_neg hlen, hca] at h
      cases h
    | some ca =>
      rw [TreeNode.expand_eq_of r hlen hca] at h
      cases hcr : choose_random r
          ((g.allowed_actions s).filter (fun a => decide (a ∉ ca))) with
      | none => rw [hcr] at h; cases h
      | some a' =>
        rw [hcr] at h
        have hinj := (Option.some.inj h).symm
        have ht' : t' = .mk t.action
            (t.children ++ [TreeNode.new (some a')])
            (if ((g.allowed_actions s).filter
                (fun a => decide (a ∉ ca))).length = 1
              then NodeState.FullyExpanded else t.state) t.n t.q :=
          congrArg Prod.fst hinj
        have hres : res = some a' := congrArg Prod.snd hinj
        subst ht'
        refine ⟨rfl, rfl, rfl, fun hn => ?_, fun a ha => ?_⟩
        · rw [hres] at hn; cases hn
        · rw [hres] at ha
          rw [Option.some.inj ha]
          rfl

/-- C5: every successful `iteration(game_state, c)` call, whichever branch
it takes, ends by incrementing the called node's own `n` by one and adding
the returned `delta` to its `q` (and returns that `delta`); branchwise,
`delta` is the current reward at a `LeafNode`; at a `FullyExpanded` node it
is the result of recursing into the `best_child` after applying its action;
when expansion produced a new child it is the reward of a playout from the
advanced state, that single visit also recorded on the new child
(`n = 1 = 0 + 1`, `q = delta`); and when expansion produced no child it is
the current reward. -/
theorem c5_iteration_spec {S A : Type} [DecidableEq A] (g : GameDef S A)
    (sq lg : ℚ → ℚ) (c : ℚ) (rng : ℕ → ℕ) (fuel k : ℕ) (t : TreeNode A)
    (s : S) (t' : TreeNode A) (delta : ℚ) (k' : ℕ)
    (h : TreeNode.iteration g sq lg c rng fuel k t s = some (t', delta, k')) :
    t'.n = t.n + 1 ∧ t'.q = t.q + delta ∧
    (t.state = NodeState.LeafNode → delta = g.reward s ∧ k' = k) ∧
    (t.state = NodeState.FullyExpanded →
      ∃ i child childRes, t.best_child_idx sq lg c = some (i, child) ∧
        ∃ a, child.action = some a ∧
          TreeNode.iteration g sq lg c rng fuel k child (g.make_move s a)
            = some (childRes, delta, k') ∧
          t'.children = t.children.set i childRes) ∧
    (t.state = NodeState.Expandable →
      ∀ t1 res, t.expand g (rng k) s = some (t1, res) →
        (res = none → delta = g.reward s ∧ t'.children = t.children) ∧
        (∀ a, res = some a →
          delta = g.reward (playoutAux g rng fuel (k + 1)
            (g.make_move s a)).1 ∧
          t'.children.getLast?
            = some (.mk (some a) [] NodeState.Expandable 1 delta))) := by
  cases ht : t.state with
  | LeafNode =>
    rw [TreeNode.iteration_leaf g sq lg c rng fuel k t s ht] at h
    have hinj := (Option.some.inj h).symm
    have ht' : t' = .mk t.action t.children t.state (t.n + 1)
        (t.q + g.reward s) := congrArg Prod.fst hinj
    have hd : delta = g.reward s := congrArg (Prod.fst ∘ Prod.snd) hinj
    have hk : k' = k := congrArg (Prod.snd ∘ Prod.snd) hinj
    subst ht'
    refine ⟨rfl, by rw [hd]; rfl, fun _ => ⟨hd, hk⟩,
      fun hcontra => ?_, fun hcontra => ?_⟩
    · cases hcontra
    · cases hcontra
  | FullyExpanded =>
    rw [TreeNode.iteration_fully g sq lg c rng fuel k t s ht] at h
    cases hbc : t.best_child_idx sq lg c with
    | none => rw [hbc] at h; cases h
    | some p =>
      obtain ⟨i, child⟩ := p
      simp only [hbc] at h
      cases hact : child.action with
      | none => simp only [hact] at h; cases h
      | some a =>
        simp only [hact] at h
        cases hit : TreeNode.iteration g sq lg c rng fuel k child
            (g.make_move s a) with
        | none => simp only [hit] at h; cases h
        | some pr =>
          obtain ⟨childRes, delta2, k2⟩ := pr
          simp only [hit] at h
          have hinj := (Option.some.inj h).symm
          have ht' : t' = .mk t.action (t.children.set i childRes) t.state
              (t.n + 1) (t.q + delta2) := congrArg Prod.fst hinj
          have hd : delta = delta2 := congrArg (Prod.fst ∘ Prod.snd) hinj
          have hk : k' = k2 := congrArg (Prod.snd ∘ Prod.snd) hinj
          subst ht'; subst hd; subst hk
          refine ⟨rfl, rfl, fun hcontra => ?_,
            fun _ => ⟨i, child, childRes, rfl, a, hact, hit, rfl⟩,
            fun hcontra => ?_⟩
          · cases hcontra
          · cases hcontra
  | Expandable =>
    rw [TreeNode.iteration_expandable g sq lg c rng fuel k t s ht] at h
    cases hexp : t.expand g (rng k) s with
    | none => rw [hexp] at h; cases h
    | some pr =>
      obtain ⟨t1, res⟩ := pr
      obtain ⟨hpa, hpn, hpq, hcnone, hcsome⟩ := TreeNode.expand_preserves hexp
      cases res with
      | none =>
        rw [hexp] at h
        have hinj := (Option.some.inj h).symm
        have ht' : t' = .mk t1.action t1.children t1.state (t1.n + 1)
            (t1.q + g.reward s) := congrArg Prod.fst hinj
        have hd : delta = g.reward s := congrArg (Prod.fst ∘ Prod.snd) hinj
        subst ht'
        refine ⟨by show t1.n + 1 = t.n + 1; rw [hpn],
          by show t1.q + g.reward s = t.q + delta; rw [hpq, hd],
          fun hcontra => ?_, fun hcontra => ?_, fun _ => ?_⟩
        · cases hcontra
        · cases hcontra
        · intro t1' res' hexp'
          have hinj' := (Option.some.inj hexp').symm
          have hres' : res' = none := congrArg Prod.snd hinj'
          have ht1' : t1' = t1 := congrArg Prod.fst hinj'
          subst ht1'
          refine ⟨fun _ => ⟨hd, ?_⟩, fun a ha => ?_⟩
          · exact hcnone rfl
          · rw [hres'] at ha; cases ha
      | some a =>
        rw [hexp] at h
        have hinj := (Option.some.inj h).symm
        have hch := hcsome a rfl
        have ht' : t' = .mk t1.action
            (listModify (fun ch => .mk ch.action ch.children ch.state
                (ch.n + 1) (ch.q + g.reward (playoutAux g rng fuel (k + 1)
                  (g.make_move s a)).1))
              (t1.children.length - 1) t1.children)
            t1.state (t1.n + 1)
            (t1.q + g.reward (playoutAux g rng fuel (k + 1)
              (g.make_move s a)).1) := congrArg Prod.fst hinj
        have hd : delta = g.reward (playoutAux g rng fuel (k + 1)
            (g.make_move s a)).1 := congrArg (Prod.fst ∘ Prod.snd) hinj
        subst ht'
        have hqgoal : t1.q + g.reward (playoutAux g rng fuel (k + 1)
            (g.make_move s a)).1 = t.q + delta := by
          rw [hpq, hd]
        refine ⟨by show t1.n + 1 = t.n + 1; rw [hpn], hqgoal,
          fun hcontra => ?_, fun hcontra => ?_, fun _ => ?_⟩
        · cases hcontra
        · cases hcontra
        · intro t1' res' hexp'
          have hinj' := (Option.some.inj hexp').symm
          have hres' : res' = some a := congrArg Prod.snd hinj'
          have ht1' : t1' = t1 := congrArg Prod.fst hinj'
          subst ht1'
          refine ⟨fun hn => ?_, fun a2 ha2 => ?_⟩
          · rw [hres'] at hn; cases hn
          · rw [hres'] at ha2
            have ha2' : a = a2 := Option.some.inj ha2
            subst ha2'
            refine ⟨hd, ?_⟩
            simp only [TreeNode.children_mk]
            rw [hch,
              show (t.children ++ [TreeNode.new (some a)]).length - 1
                = t.children.length by simp,
              listModify_append_singleton, List.getLast?_concat]
            rw [hd]
            simp [TreeNode.new]

/-- C5 witness: one iteration on a fresh node over the terminal toy game
takes the expandable-leaf branch, increments `n` to 1, adds `delta = 0`. -/
theorem c5_iteration_spec_witness :
    TreeNode.iteration trivGame id id 1 (fun _ => 0) 0 0
        (TreeNode.new none) ()
      = some (TreeNode.mk none [] NodeState.LeafNode 1 0, 0, 1) ∧
    (TreeNode.mk (none : Option Unit) [] NodeState.LeafNode 1 0).n
        = (TreeNode.new (none : Option Unit)).n + 1 ∧
    (TreeNode.mk (none : Option Unit) [] NodeState.LeafNode 1 0).q
        = (TreeNode.new (none : Option Unit)).q + 0 := by
  have heval : TreeNode.iteration trivGame id id 1 (fun _ => 0) 0 0
      (TreeNode.new none) ()
      = some (TreeNode.mk none [] NodeState.LeafNode 1 0, 0, 1) := by
    rw [TreeNode.iteration]
    simp [TreeNode.expand, trivGame, TreeNode.new, TreeNode.state,
      TreeNode.action, TreeNode.children, TreeNode.n, TreeNode.q]
  have hspec := c5_iteration_spec trivGame id id 1 (fun _ => 0) 0 0
    (TreeNode.new none) () (TreeNode.mk none [] NodeState.LeafNode 1 0) 0 1
    heval
  exact ⟨heval, hspec.1, hspec.2.1⟩

/-! ## C7: node-state monotonicity -/

/-- The node-state order of the search state machine: `Expandable` may move
anywhere; `FullyExpanded` and `LeafNode` are final. -/
def stateLe : NodeState → NodeState → Prop
  | NodeState.Expandable, _ => True
  | st, st' => st = st'

/-- `stateLe` is reflexive. -/
theorem stateLe_refl : ∀ st : NodeState, stateLe st st := by
  intro st
  cases st <;> simp [stateLe]

/-- `stateLe` is transitive. -/
theorem stateLe_trans {s u v : NodeState} (h1 : stateLe s u)
    (h2 : stateLe u v) : stateLe s v := by
  cases s <;> cases u <;> cases v <;> simp_all [stateLe]

/-- A node that has left `Expandable` never changes state again. -/
theorem stateLe_final {s s' : NodeState} (h : stateLe s s')
    (hne : s ≠ NodeState.Expandable) : s' = s := by
  cases s <;> cases s' <;> simp_all [stateLe]

/-- Structural tree evolution respecting the claim's invariants: the root
state moves along `stateLe`, children are only appended (each existing
child evolving in place, recursively), and a `LeafNode` acquires no
children. Visit and value statistics are unconstrained. -/
inductive Mono {A : Type} : TreeNode A → TreeNode A → Prop
  | mk {a a' : Option A} {cs cs' : List (TreeNode A)} {st st' : NodeState}
      {n q n' q' : ℚ}
      (hst : stateLe st st')
      (hlen : cs.length ≤ cs'.length)
      (hleaf : st = NodeState.LeafNode → cs'.length = cs.length)
      (hchild : ∀ i (h : i < cs.length) (h' : i < cs'.length),
        Mono cs[i] cs'[i]) :
      Mono (.mk a cs st n q) (.mk a' cs' st' n' q')

/-- `Mono` is reflexive. -/
theorem Mono.refl {A : Type} : ∀ t : TreeNode A, Mono t t := by
  refine TreeNode.strongInd ?_
  intro t ih
  cases t with
  | mk a cs st n q =>
    refine Mono.mk (stateLe_refl st) (le_refl _) (fun _ => rfl) ?_
    intro i h h'
    exact ih _ (by simpa using List.getElem_mem h)

/-- `Mono` is transitive. -/
theorem Mono.trans {A : Type} :
    ∀ t u v : TreeNode A, Mono t u → Mono u v → Mono t v := by
  refine TreeNode.strongInd
    (P := fun t => ∀ u v, Mono t u → Mono u v → Mono t v) ?_
  intro t ih u v htu huv
  cases htu with
  | mk hst1 hlen1 hleaf1 hch1 =>
    cases huv with
    | mk hst2 hlen2 hleaf2 hch2 =>
      refine Mono.mk (stateLe_trans hst1 hst2) (le_trans hlen1 hlen2) ?_ ?_
      · intro hleafcase
        have h1 := hleaf1 hleafcase
        have hfin := stateLe_final hst1 (by rw [hleafcase]; intro hcontra; cases hcontra)
        rw [hleafcase] at hfin
        have h2 := hleaf2 hfin
        omega
      · intro i h h'
        have hmid : i < _ := lt_of_lt_of_le h hlen1
        exact ih _ (by simpa using List.getElem_mem h) _ _
          (hch1 i h hmid) (hch2 i hmid h')

/-- `expand` called on an `Expandable` node (as `iteration` always does)
evolves it along `Mono`. -/
theorem TreeNode.expand_mono {S A : Type} [DecidableEq A] {g : GameDef S A}
    {r : ℕ} {s : S} {t t' : TreeNode A} {res : Option A}
    (hst : t.state = NodeState.Expandable)
    (h : t.expand g r s = some (t', res)) : Mono t t' := by
  obtain ⟨hpa, hpn, hpq, hcnone, hcsome⟩ := TreeNode.expand_preserves h
  cases t with
  | mk a cs st n q =>
    cases t' with
    | mk a' cs' st' n' q' =>
      simp only [TreeNode.state_mk] at hst
      subst hst
      cases res with
      | none =>
        have hc : cs' = cs := by simpa using hcnone (Eq.refl none)
        subst hc
        exact Mono.mk trivial (le_refl _) (fun hcontra => by cases hcontra)
          (fun i h h' => Mono.refl _)
      | some a0 =>
        have hc : cs' = cs ++ [TreeNode.new (some a0)] := by
          simpa using hcsome a0 (Eq.refl (some a0))
        subst hc
        refine Mono.mk trivial (by simp) (fun hcontra => by cases hcontra) ?_
        intro i h h'
        rw [List.getElem_append_left h]
        exact Mono.refl _

/-- One MCTS iteration evolves the node it is called on along `Mono`. -/
theorem TreeNode.iteration_mono {S A : Type} [DecidableEq A]
    (g : GameDef S A) (sq lg : ℚ → ℚ) (c : ℚ) (rng : ℕ → ℕ) (fuel : ℕ) :
    ∀ t : TreeNode A, ∀ (k : ℕ) (s : S) (t' : TreeNode A) (delta : ℚ)
      (k' : ℕ),
      TreeNode.iteration g sq lg c rng fuel k t s = some (t', delta, k') →
      Mono t t' := by
  refine TreeNode.strongInd
    (P := fun t => ∀ k s t' delta k',
      TreeNode.iteration g sq lg c rng fuel k t s = some (t', delta, k') →
      Mono t t') ?_
  intro t ih k s t' delta k' h
  obtain ⟨a, cs, st, n, q⟩ := t
  have ihcs : ∀ c0 ∈ cs, ∀ k s t' delta k',
      TreeNode.iteration g sq lg c rng fuel k c0 s = some (t', delta, k') →
      Mono c0 t' := by
    intro c0 hc0
    exact ih c0 (by simpa using hc0)
  cases st with
  | LeafNode =>
    rw [TreeNode.iteration_leaf g sq lg c rng fuel k
      (TreeNode.mk a cs NodeState.LeafNode n q) s rfl] at h
    have hinj := (Option.some.inj h).symm
    have ht' := congrArg Prod.fst hinj
    subst ht'
    exact Mono.mk (stateLe_refl _) (le_refl _) (fun _ => rfl)
      (fun i h1 h2 => Mono.refl _)
  | FullyExpanded =>
    rw [TreeNode.iteration_fully g sq lg c rng fuel k
      (TreeNode.mk a cs NodeState.FullyExpanded n q) s rfl] at h
    cases hbc : TreeNode.best_child_idx sq lg c
        (TreeNode.mk a cs NodeState.FullyExpanded n q) with
    | none => rw [hbc] at h; cases h
    | some p =>
      obtain ⟨i, child⟩ := p
      simp only [hbc] at h
      cases hact : child.action with
      | none => simp only [hact] at h; cases h
      | some a0 =>
        simp only [hact] at h
        cases hit : TreeNode.iteration g sq lg c rng fuel k child
            (g.make_move s a0) with
        | none => simp only [hit] at h; cases h
        | some pr =>
          obtain ⟨childRes, delta2, k2⟩ := pr
          simp only [hit] at h
          have hinj := (Option.some.inj h).symm
          have ht' := congrArg Prod.fst hinj
          subst ht'
          have hchildmem : child ∈ cs := by
            simpa using TreeNode.best_child_idx_mem_children hbc
          have hci : cs[i]? = some child := by
            have hmem := TreeNode.best_child_idx_mem hbc
            simpa using List.mk_mem_enum_iff_getElem?.mp (by simpa using hmem)
          obtain ⟨hilen, hielem⟩ := List.getElem?_eq_some.mp hci
          have hmono : Mono child childRes :=
            ihcs child hchildmem k (g.make_move s a0) childRes delta2 k2 hit
          refine Mono.mk (stateLe_refl _) (by simp) (fun _ => by simp) ?_
          intro j hj hj'
          by_cases hji : j = i
          · subst hji
            rw [List.getElem_set_self (by simpa using hj)]
            rw [hielem]
            exact hmono
          · rw [List.getElem_set_ne (fun hcontra => hji hcontra.symm)]
            exact Mono.refl _
  | Expandable =>
    rw [TreeNode.iteration_expandable g sq lg c rng fuel k
      (TreeNode.mk a cs NodeState.Expandable n q) s rfl] at h
    cases hexp : TreeNode.expand g (rng k) s
        (TreeNode.mk a cs NodeState.Expandable n q) with
    | none => rw [hexp] at h; cases h
    | some pr =>
      obtain ⟨t1, res⟩ := pr
      have hm1 : Mono (TreeNode.mk a cs NodeState.Expandable n q) t1 :=
        TreeNode.expand_mono rfl hexp
      obtain ⟨hpa, hpn, hpq, hcnone, hcsome⟩ := TreeNode.expand_preserves hexp
      cases res with
      | none =>
        simp only [hexp] at h
        have hinj := (Option.some.inj h).symm
        have ht' := congrArg Prod.fst hinj
        subst ht'
        cases t1 with
        | mk a1 cs1 st1 n1 q1 =>
          cases hm1 with
          | mk hst hlen hleaf hchild => exact Mono.mk hst hlen hleaf hchild
      | some a0 =>
        simp only [hexp] at h
        have hinj := (Option.some.inj h).symm
        have ht' := congrArg Prod.fst hinj
        subst ht'
        have hch : t1.children = cs ++ [TreeNode.new (some a0)] := by
          simpa using hcsome a0 (Eq.refl (some a0))
        have hlist : listModify
            (fun ch => TreeNode.mk ch.action ch.children ch.state
              (ch.n + 1) (ch.q + g.reward (playoutAux g rng fuel (k + 1)
                (g.make_move s a0)).1))
            (t1.children.length - 1) t1.children
            = cs ++ [TreeNode.mk (some a0) [] NodeState.Expandable (0 + 1)
                (0 + g.reward (playoutAux g rng fuel (k + 1)
                  (g.make_move s a0)).1)] := by
          rw [hch, show (cs ++ [TreeNode.new (some a0)]).length - 1
              = cs.length by simp, listModify_append_singleton]
          rfl
        rw [hlist]
        refine Mono.mk trivial (by simp) (fun hcontra => by cases hcontra) ?_
        intro j hj hj'
        rw [List.getElem_append_left hj]
        exact Mono.refl _

/-- The per-member sampling loop of `search` evolves the root along
`Mono`. -/
theorem searchMember_mono {S A : Type} [DecidableEq A] (g : GameDef S A)
    (sq lg : ℚ → ℚ) (c : ℚ) (rng : ℕ → ℕ) (fuel : ℕ) (s : S) :
    ∀ (ns k : ℕ) (root root' : TreeNode A) (k' : ℕ),
      searchMember g sq lg c rng fuel s ns k root = some (root', k') →
      Mono root root' := by
  intro ns
  induction ns with
  | zero =>
    intro k root root' k' h
    have hinj := (Option.some.inj h).symm
    have hroot := congrArg Prod.fst hinj
    subst hroot
    exact Mono.refl _
  | succ ns ihn =>
    intro k root root' k' h
    rw [searchMember] at h
    cases hit : TreeNode.iteration g sq lg c rng fuel k root s with
    | none => rw [hit] at h; cases h
    | some pr =>
      obtain ⟨root1, d1, k1⟩ := pr
      simp only [hit] at h
      exact Mono.trans _ _ _
        (TreeNode.iteration_mono g sq lg c rng fuel root k s root1 d1 k1 hit)
        (ihn k1 root1 root' k' h)

/-- The ensemble loop of `search` evolves every root along `Mono`
(pointwise). -/
theorem searchGo_mono {S A : Type} [DecidableEq A] (g : GameDef S A)
    (sq lg : ℚ → ℚ) (c : ℚ) (rng : ℕ → ℕ) (fuel : ℕ) (n_samples : ℕ) :
    ∀ (games : List S) (roots : List (TreeNode A)) (k : ℕ)
      (rootsRes : List (TreeNode A)) (k' : ℕ),
      searchGo g sq lg c rng fuel n_samples roots games k
        = some (rootsRes, k') →
      List.Forall₂ Mono roots rootsRes := by
  intro games
  induction games with
  | nil =>
    intro roots k rootsRes k' h
    rw [searchGo] at h
    have hinj := (Option.some.inj h).symm
    have hroots := congrArg Prod.fst hinj
    subst hroots
    exact List.forall₂_same.mpr (fun x _ => Mono.refl x)
  | cons s games ihg =>
    intro roots k rootsRes k' h
    cases roots with
    | nil => cases h
    | cons root roots =>
      rw [searchGo] at h
      cases hm : searchMember g sq lg c rng fuel s n_samples k root with
      | none => rw [hm] at h; cases h
      | some pr =>
        obtain ⟨root1, k1⟩ := pr
        simp only [hm] at h
        cases hgo : searchGo g sq lg c rng fuel n_samples roots games k1 with
        | none => rw [hgo] at h; cases h
        | some pr2 =>
          obtain ⟨roots2, k2⟩ := pr2
          simp only [hgo] at h
          have hinj := (Option.some.inj h).symm
          have hroots : rootsRes = root1 :: roots2 := congrArg Prod.fst hinj
          subst hroots
          exact List.Forall₂.cons
            (searchMember_mono g sq lg c rng fuel s n_samples k root root1
              k1 hm)
            (ihg roots k1 roots2 k2 hgo)

/-- C7 counterexample: the claim quantifies over every sequence of
operations including direct `expand` calls, but `expand` never inspects the
node's current state. A fresh node expanded on a terminal state becomes a
`LeafNode`; expanding that same node again on a state with one legal action
flips it to `FullyExpanded` and appends a child — a `LeafNode`-to-
`FullyExpanded` transition and a `LeafNode` acquiring a child, both
forbidden by the claim. -/
theorem c7_expand_breaks_monotonicity :
    (TreeNode.new (none : Option Unit)).expand trivGame 0 ()
        = some (TreeNode.mk none [] NodeState.LeafNode 0 0, none) ∧
    (TreeNode.mk (none : Option Unit) [] NodeState.LeafNode 0 0).expand
        oneActionGame 0 ()
      = some (TreeNode.mk none [TreeNode.new (some ())]
          NodeState.FullyExpanded 0 0, some ()) ∧
    (TreeNode.mk (none : Option Unit) [] NodeState.LeafNode 0 0).state
        = NodeState.LeafNode ∧
    (TreeNode.mk (none : Option Unit) [TreeNode.new (some ())]
        NodeState.FullyExpanded 0 0).state = NodeState.FullyExpanded ∧
    (TreeNode.mk (none : Option Unit) [TreeNode.new (some ())]
        NodeState.FullyExpanded 0 0).children.length = 1 :=
  ⟨rfl, rfl, rfl, rfl, rfl⟩

/-- C7 (amended): under the operations the search actually performs —
`iteration` (hence `search`), and `expand` on `Expandable` nodes, the only
way `iteration` invokes it — every node moves along `stateLe`
(`Expandable → {FullyExpanded, LeafNode}`, final states never change, so a
node transitions at most once and never reverts), and a `LeafNode` never
acquires children; `search` evolves every ensemble root this way. A direct
`expand` call on a non-`Expandable` node escapes the invariant (see the
counterexample). -/
theorem c7_state_monotonicity {S A : Type} [DecidableEq A] (g : GameDef S A)
    (sq lg : ℚ → ℚ) :
    (∀ s s' : NodeState, stateLe s s' → s ≠ NodeState.Expandable →
      s' = s) ∧
    (∀ (r : ℕ) (s : S) (t t' : TreeNode A) (res : Option A),
      t.state = NodeState.Expandable → t.expand g r s = some (t', res) →
      Mono t t') ∧
    (∀ (c : ℚ) (rng : ℕ → ℕ) (fuel k : ℕ) (t : TreeNode A) (s : S)
      (t' : TreeNode A) (delta : ℚ) (k' : ℕ),
      TreeNode.iteration g sq lg c rng fuel k t s = some (t', delta, k') →
      Mono t t') ∧
    (∀ (c : ℚ) (rng : ℕ → ℕ) (fuel n_samples k : ℕ) (m m' : MCTS S A)
      (k' : ℕ),
      MCTS.search g sq lg m n_samples c rng fuel k = some (m', k') →
      List.Forall₂ Mono m.roots m'.roots) :=
  ⟨fun _ _ h hne => stateLe_final h hne,
   fun _ _ _ _ _ hst h => TreeNode.expand_mono hst h,
   fun c rng fuel k t s t' delta k' h =>
     TreeNode.iteration_mono g sq lg c rng fuel t k s t' delta k' h,
   fun c rng fuel n_samples k m m' k' h => by
     unfold MCTS.search at h
     cases hgo : searchGo g sq lg c rng fuel n_samples m.roots m.games k with
     | none => rw [hgo] at h; cases h
     | some pr =>
       obtain ⟨roots2, k2⟩ := pr
       rw [hgo] at h
       cases h
       exact searchGo_mono g sq lg c rng fuel n_samples m.games m.roots k
         _ _ hgo⟩

/-- C7 witness: one iteration on a fresh node over the terminal toy game
moves it from `Expandable` to `LeafNode`, a `Mono` step. -/
theorem c7_state_monotonicity_witness :
    TreeNode.iteration trivGame id id 1 (fun _ => 0) 0 0
        (TreeNode.new none) ()
      = some (TreeNode.mk none [] NodeState.LeafNode 1 0, 0, 1) ∧
    Mono (TreeNode.new (none : Option Unit))
      (TreeNode.mk none [] NodeState.LeafNode 1 0) := by
  have heval : TreeNode.iteration trivGame id id 1 (fun _ => 0) 0 0
      (TreeNode.new none) ()
      = some (TreeNode.mk none [] NodeState.LeafNode 1 0, 0, 1) := by
    rw [TreeNode.iteration]
    simp [TreeNode.expand, trivGame, TreeNode.new]
  exact ⟨heval, (c7_state_monotonicity trivGame id id).2.2.1 1 (fun _ => 0)
    0 0 (TreeNode.new none) () (TreeNode.mk none [] NodeState.LeafNode 1 0)
    0 1 heval⟩


/-! ## C6: `best_action` aggregation -/

/-- Specification sum: total visit count of the children of `cs` whose
action is `b`. -/
def sumN {A : Type} [DecidableEq A] (cs : List (TreeNode A)) (b : A) : ℚ :=
  ((cs.filter (fun c => decide (c.action = some b))).map TreeNode.n).sum

/-- Specification sum: total value of the children of `cs` whose action is
`b`. -/
def sumQ {A : Type} [DecidableEq A] (cs : List (TreeNode A)) (b : A) : ℚ :=
  ((cs.filter (fun c => decide (c.action = some b))).map TreeNode.q).sum

/-- `actionN` is `sumN` over all roots' children. -/
theorem actionN_eq_sumN {A : Type} [DecidableEq A]
    (roots : List (TreeNode A)) (a : A) :
    actionN roots a = sumN ((roots.map TreeNode.children).flatten) a := rfl

/-- `actionQ` is `sumQ` over all roots' children. -/
theorem actionQ_eq_sumQ {A : Type} [DecidableEq A]
    (roots : List (TreeNode A)) (a : A) :
    actionQ roots a = sumQ ((roots.map TreeNode.children).flatten) a := rfl

/-- `sumN` distributes over concatenation. -/
theorem sumN_append {A : Type} [DecidableEq A] (cs ds : List (TreeNode A))
    (b : A) : sumN (cs ++ ds) b = sumN cs b + sumN ds b := by
  unfold sumN
  rw [List.filter_append, List.map_append, List.sum_append]

/-- `sumQ` distributes over concatenation. -/
theorem sumQ_append {A : Type} [DecidableEq A] (cs ds : List (TreeNode A))
    (b : A) : sumQ (cs ++ ds) b = sumQ cs b + sumQ ds b := by
  unfold sumQ
  rw [List.filter_append, List.map_append, List.sum_append]

/-- `sumN` over a cons. -/
theorem sumN_cons {A : Type} [DecidableEq A] (c : TreeNode A)
    (cs : List (TreeNode A)) (b : A) :
    sumN (c :: cs) b
      = (if c.action = some b then c.n else 0) + sumN cs b := by
  unfold sumN
  by_cases h : c.action = some b <;> simp [List.filter_cons, h]

/-- `sumQ` over a cons. -/
theorem sumQ_cons {A : Type} [DecidableEq A] (c : TreeNode A)
    (cs : List (TreeNode A)) (b : A) :
    sumQ (c :: cs) b
      = (if c.action = some b then c.q else 0) + sumQ cs b := by
  unfold sumQ
  by_cases h : c.action = some b <;> simp [List.filter_cons, h]

/-- `tableN` over a cons. -/
theorem tableN_cons {A : Type} [DecidableEq A] (p : A × ℚ × ℚ)
    (table : List (A × ℚ × ℚ)) (b : A) :
    tableN (p :: table) b
      = (if p.1 = b then p.2.1 else 0) + tableN table b := by
  unfold tableN
  by_cases h : p.1 = b <;> simp [List.filter_cons, h]

/-- `tableQ` over a cons. -/
theorem tableQ_cons {A : Type} [DecidableEq A] (p : A × ℚ × ℚ)
    (table : List (A × ℚ × ℚ)) (b : A) :
    tableQ (p :: table) b
      = (if p.1 = b then p.2.2 else 0) + tableQ table b := by
  unfold tableQ
  by_cases h : p.1 = b <;> simp [List.filter_cons, h]

/-- Effect of `tableAdd` on the stored `n` sums. -/
theorem tableN_tableAdd {A : Type} [DecidableEq A] (a : A) (dn dq : ℚ) :
    ∀ (table : List (A × ℚ × ℚ)) (b : A),
      tableN (tableAdd a dn dq table) b
        = tableN table b + (if a = b then dn else 0) := by
  intro table
  induction table with
  | nil =>
    intro b
    by_cases h : a = b <;> simp [tableAdd, tableN_cons, tableN, h]
  | cons p rest ih =>
    intro b
    obtain ⟨x, xn, xq⟩ := p
    by_cases hax : a = x
    · subst hax
      by_cases hab : a = b <;>
        simp [tableAdd, tableN_cons, hab] <;> ring
    · rw [show tableAdd a dn dq ((x, xn, xq) :: rest)
          = (x, xn, xq) :: tableAdd a dn dq rest by simp [tableAdd, hax]]
      rw [tableN_cons, tableN_cons, ih b]
      ring

/-- Effect of `tableAdd` on the stored `q` sums. -/
theorem tableQ_tableAdd {A : Type} [DecidableEq A] (a : A) (dn dq : ℚ) :
    ∀ (table : List (A × ℚ × ℚ)) (b : A),
      tableQ (tableAdd a dn dq table) b
        = tableQ table b + (if a = b then dq else 0) := by
  intro table
  induction table with
  | nil =>
    intro b
    by_cases h : a = b <;> simp [tableAdd, tableQ_cons, tableQ, h]
  | cons p rest ih =>
    intro b
    obtain ⟨x, xn, xq⟩ := p
    by_cases hax : a = x
    · subst hax
      by_cases hab : a = b <;>
        simp [tableAdd, tableQ_cons, hab] <;> ring
    · rw [show tableAdd a dn dq ((x, xn, xq) :: rest)
          = (x, xn, xq) :: tableAdd a dn dq rest by simp [tableAdd, hax]]
      rw [tableQ_cons, tableQ_cons, ih b]
      ring

/-- `tableAdd` keys: unchanged when present, appended when new. -/
theorem tableAdd_keys {A : Type} [DecidableEq A] (a : A) (dn dq : ℚ) :
    ∀ table : List (A × ℚ × ℚ),
      (tableAdd a dn dq table).map Prod.fst
        = if a ∈ table.map Prod.fst then table.map Prod.fst
          else table.map Prod.fst ++ [a] := by
  intro table
  induction table with
  | nil => simp [tableAdd]
  | cons p rest ih =>
    obtain ⟨x, xn, xq⟩ := p
    by_cases hax : a = x
    · subst hax
      simp [tableAdd]
    · rw [show tableAdd a dn dq ((x, xn, xq) :: rest)
          = (x, xn, xq) :: tableAdd a dn dq rest by simp [tableAdd, hax]]
      by_cases hmem : a ∈ rest.map Prod.fst
      · simp [ih, hmem, hax]
      · simp [ih, hmem, hax]

/-- `tableAdd` never returns an empty table. -/
theorem tableAdd_ne_nil {A : Type} [DecidableEq A] (a : A) (dn dq : ℚ)
    (table : List (A × ℚ × ℚ)) : tableAdd a dn dq table ≠ [] := by
  cases table with
  | nil => simp [tableAdd]
  | cons p rest =>
    obtain ⟨x, xn, xq⟩ := p
    by_cases hax : a = x <;> simp [tableAdd, hax]

/-- Key-distinctness is preserved by `tableAdd`. -/
theorem tableAdd_keys_nodup {A : Type} [DecidableEq A] (a : A) (dn dq : ℚ)
    (table : List (A × ℚ × ℚ)) (h : (table.map Prod.fst).Nodup) :
    ((tableAdd a dn dq table).map Prod.fst).Nodup := by
  rw [tableAdd_keys]
  by_cases hmem : a ∈ table.map Prod.fst
  · simpa [hmem] using h
  · simp only [hmem, if_neg]
    simp [List.nodup_append, h, hmem]

/-- A key absent from a table contributes zero sums. -/
theorem tableN_eq_zero_of_not_mem {A : Type} [DecidableEq A] :
    ∀ (table : List (A × ℚ × ℚ)) (b : A), b ∉ table.map Prod.fst →
      tableN table b = 0 := by
  intro table
  induction table with
  | nil => intro b _; rfl
  | cons p rest ih =>
    intro b hb
    rw [tableN_cons, ih b (fun hmem => hb (by simp [hmem]))]
    have hne : ¬ p.1 = b := fun hcontra => hb (by simp [hcontra])
    simp [hne]

/-- A key absent from a table contributes zero sums. -/
theorem tableQ_eq_zero_of_not_mem {A : Type} [DecidableEq A] :
    ∀ (table : List (A × ℚ × ℚ)) (b : A), b ∉ table.map Prod.fst →
      tableQ table b = 0 := by
  intro table
  induction table with
  | nil => intro b _; rfl
  | cons p rest ih =>
    intro b hb
    rw [tableQ_cons, ih b (fun hmem => hb (by simp [hmem]))]
    have hne : ¬ p.1 = b := fun hcontra => hb (by simp [hcontra])
    simp [hne]

/-- In a key-distinct table, each entry stores exactly the table's sums for
its key. -/
theorem mem_table_eq_sums {A : Type} [DecidableEq A] :
    ∀ table : List (A × ℚ × ℚ), (table.map Prod.fst).Nodup →
      ∀ p ∈ table, p.2.1 = tableN table p.1 ∧ p.2.2 = tableQ table p.1 := by
  intro table
  induction table with
  | nil => intro _ p hp; cases hp
  | cons x rest ih =>
    intro hnd p hp
    have hnd2 : (x.1 :: rest.map Prod.fst).Nodup := by
      simpa only [List.map_cons] using hnd
    have hnd' : (rest.map Prod.fst).Nodup := (List.nodup_cons.mp hnd2).2
    have hxnot : x.1 ∉ rest.map Prod.fst := (List.nodup_cons.mp hnd2).1
    rcases List.mem_cons.mp hp with hpx | hprest
    · subst hpx
      rw [tableN_cons, tableQ_cons,
        tableN_eq_zero_of_not_mem rest p.1 hxnot,
        tableQ_eq_zero_of_not_mem rest p.1 hxnot]
      simp
    · have hpkey : p.1 ∈ rest.map Prod.fst := by
        exact List.mem_map_of_mem Prod.fst hprest
      have hne : ¬ x.1 = p.1 := fun hcontra => hxnot (hcontra ▸ hpkey)
      obtain ⟨h1, h2⟩ := ih hnd' p hprest
      rw [tableN_cons, tableQ_cons]
      simp [hne, h1, h2]


/-- The inserted key is present after `tableAdd`. -/
theorem tableAdd_mem_keys {A : Type} [DecidableEq A] (a : A) (dn dq : ℚ)
    (table : List (A × ℚ × ℚ)) :
    a ∈ (tableAdd a dn dq table).map Prod.fst := by
  rw [tableAdd_keys]
  by_cases hmem : a ∈ table.map Prod.fst <;> simp [hmem]

/-- Existing keys survive `tableAdd`. -/
theorem tableAdd_keys_mono {A : Type} [DecidableEq A] (a : A) (dn dq : ℚ)
    (table : List (A × ℚ × ℚ)) {b : A} (hb : b ∈ table.map Prod.fst) :
    b ∈ (tableAdd a dn dq table).map Prod.fst := by
  rw [tableAdd_keys]
  by_cases hmem : a ∈ table.map Prod.fst <;> simp [hmem, hb]

/-- Invariant of the per-root child-accumulation loop of `best_action`. -/
theorem collectChildren_spec {A : Type} [DecidableEq A] :
    ∀ (cs : List (TreeNode A)) (acc table : List (A × ℚ × ℚ)),
      collectChildren cs acc = some table →
      (∀ b, tableN table b = tableN acc b + sumN cs b) ∧
      (∀ b, tableQ table b = tableQ acc b + sumQ cs b) ∧
      ((acc.map Prod.fst).Nodup → (table.map Prod.fst).Nodup) ∧
      (∀ b ∈ acc.map Prod.fst, b ∈ table.map Prod.fst) ∧
      (∀ ch ∈ cs, ∀ a0, ch.action = some a0 →
        a0 ∈ table.map Prod.fst) := by
  intro cs
  induction cs with
  | nil =>
    intro acc table h
    have hat : acc = table := Option.some.inj h
    subst hat
    exact ⟨fun b => by simp [sumN, List.filter], fun b => by
      simp [sumQ, List.filter], fun hnd => hnd, fun b hb => hb,
      fun ch hch => by cases hch⟩
  | cons ch rest ih =>
    intro acc table h
    rw [collectChildren] at h
    cases hact : ch.action with
    | none => rw [hact] at h; cases h
    | some a0 =>
      rw [hact] at h
      obtain ⟨hN, hQ, hnd, hmono, hkeys⟩ :=
        ih (tableAdd a0 ch.n ch.q acc) table h
      refine ⟨?_, ?_, ?_, ?_, ?_⟩
      · intro b
        rw [hN b, tableN_tableAdd, sumN_cons, hact]
        by_cases hab : a0 = b
        · subst hab; simp; ring
        · have hsome : ¬ (some a0 = some b) := fun hc => hab
            (Option.some.inj hc)
          simp [hab, hsome]
      · intro b
        rw [hQ b, tableQ_tableAdd, sumQ_cons, hact]
        by_cases hab : a0 = b
        · subst hab; simp; ring
        · have hsome : ¬ (some a0 = some b) := fun hc => hab
            (Option.some.inj hc)
          simp [hab, hsome]
      · intro hnd0
        exact hnd (tableAdd_keys_nodup _ _ _ _ hnd0)
      · intro b hb
        exact hmono b (tableAdd_keys_mono _ _ _ _ hb)
      · intro ch2 hch2 a1 ha1
        rcases List.mem_cons.mp hch2 with hc | hc
        · subst hc
          have ha01 : a0 = a1 := Option.some.inj (hact.symm.trans ha1)
          subst ha01
          exact hmono a0 (tableAdd_mem_keys _ _ _ _)
        · exact hkeys ch2 hc a1 ha1

/-- Invariant of the ensemble accumulation loop of `best_action`. -/
theorem collectRoots_spec {A : Type} [DecidableEq A] :
    ∀ (roots : List (TreeNode A)) (acc table : List (A × ℚ × ℚ)),
      collectRoots roots acc = some table →
      (∀ b, tableN table b
        = tableN acc b + sumN ((roots.map TreeNode.children).flatten) b) ∧
      (∀ b, tableQ table b
        = tableQ acc b + sumQ ((roots.map TreeNode.children).flatten) b) ∧
      ((acc.map Prod.fst).Nodup → (table.map Prod.fst).Nodup) ∧
      (∀ b ∈ acc.map Prod.fst, b ∈ table.map Prod.fst) ∧
      (∀ root ∈ roots, ∀ ch ∈ root.children, ∀ a0, ch.action = some a0 →
        a0 ∈ table.map Prod.fst) := by
  intro roots
  induction roots with
  | nil =>
    intro acc table h
    have hat : acc = table := Option.some.inj h
    subst hat
    exact ⟨fun b => by simp [sumN, List.filter], fun b => by
      simp [sumQ, List.filter], fun hnd => hnd, fun b hb => hb,
      fun root hroot => by cases hroot⟩
  | cons root roots ih =>
    intro acc table h
    rw [collectRoots] at h
    cases hcc : collectChildren root.children acc with
    | none => rw [hcc] at h; cases h
    | some acc1 =>
      rw [hcc] at h
      obtain ⟨hN1, hQ1, hnd1, hmono1, hkeys1⟩ :=
        collectChildren_spec root.children acc acc1 hcc
      obtain ⟨hN2, hQ2, hnd2, hmono2, hkeys2⟩ := ih acc1 table h
      refine ⟨?_, ?_, fun hnd0 => hnd2 (hnd1 hnd0),
        fun b hb => hmono2 b (hmono1 b hb), ?_⟩
      · intro b
        rw [hN2 b, hN1 b, List.map_cons, List.flatten_cons, sumN_append]
        ring
      · intro b
        rw [hQ2 b, hQ1 b, List.map_cons, List.flatten_cons, sumQ_append]
        ring
      · intro root2 hroot2 ch hch a0 ha0
        rcases List.mem_cons.mp hroot2 with hr | hr
        · subst hr
          exact hmono2 a0 (hkeys1 ch hch a0 ha0)
        · exact hkeys2 root2 hr ch hch a0 ha0

/-- The accumulated table is empty exactly when it started empty and no
child was processed. -/
theorem collectChildren_table_nil_iff {A : Type} [DecidableEq A] :
    ∀ (cs : List (TreeNode A)) (acc table : List (A × ℚ × ℚ)),
      collectChildren cs acc = some table →
      (table = [] ↔ acc = [] ∧ cs = []) := by
  intro cs
  induction cs with
  | nil =>
    intro acc table h
    have hat : acc = table := Option.some.inj h
    subst hat
    simp
  | cons ch rest ih =>
    intro acc table h
    rw [collectChildren] at h
    cases hact : ch.action with
    | none => rw [hact] at h; cases h
    | some a0 =>
      rw [hact] at h
      have hiff := ih _ _ h
      constructor
      · intro htab
        exact absurd (hiff.mp htab).1 (tableAdd_ne_nil _ _ _ _)
      · rintro ⟨-, hcontra⟩
        cases hcontra


/-- The final table is empty exactly when it started empty and no ensemble
root has any children. -/
theorem collectRoots_table_nil_iff {A : Type} [DecidableEq A] :
    ∀ (roots : List (TreeNode A)) (acc table : List (A × ℚ × ℚ)),
      collectRoots roots acc = some table →
      (table = [] ↔ acc = [] ∧ ∀ root ∈ roots, root.children = []) := by
  intro roots
  induction roots with
  | nil =>
    intro acc table h
    have hat : acc = table := Option.some.inj h
    subst hat
    simp
  | cons root roots ih =>
    intro acc table h
    rw [collectRoots] at h
    cases hcc : collectChildren root.children acc with
    | none => rw [hcc] at h; cases h
    | some acc1 =>
      rw [hcc] at h
      have h1 := collectChildren_table_nil_iff root.children acc acc1 hcc
      rw [ih acc1 table h, h1]
      constructor
      · rintro ⟨⟨hacc, hch⟩, hrest⟩
        refine ⟨hacc, ?_⟩
        intro r hr
        rcases List.mem_cons.mp hr with hc | hc
        · rw [hc]; exact hch
        · exact hrest r hc
      · rintro ⟨hacc, hall⟩
        exact ⟨⟨hacc, hall root (List.mem_cons_self _ _)⟩,
          fun r hr => hall r (List.mem_cons_of_mem _ hr)⟩

/-- When every child has an action, the accumulation loop cannot panic. -/
theorem collectChildren_isSome {A : Type} [DecidableEq A] :
    ∀ (cs : List (TreeNode A)) (acc : List (A × ℚ × ℚ)),
      (∀ ch ∈ cs, ch.action ≠ none) →
      ∃ table, collectChildren cs acc = some table := by
  intro cs
  induction cs with
  | nil => intro acc _; exact ⟨acc, rfl⟩
  | cons ch rest ih =>
    intro acc hact
    cases hc : ch.action with
    | none => exact absurd hc (hact ch (List.mem_cons_self ch rest))
    | some a0 =>
      obtain ⟨table, htable⟩ := ih (tableAdd a0 ch.n ch.q acc)
        (fun x hx => hact x (List.mem_cons_of_mem ch hx))
      exact ⟨table, by rw [collectChildren, hc]; exact htable⟩

/-- When every root's child has an action, `best_action` cannot panic. -/
theorem collectRoots_isSome {A : Type} [DecidableEq A] :
    ∀ (roots : List (TreeNode A)) (acc : List (A × ℚ × ℚ)),
      (∀ root ∈ roots, ∀ ch ∈ root.children, ch.action ≠ none) →
      ∃ table, collectRoots roots acc = some table := by
  intro roots
  induction roots with
  | nil => intro acc _; exact ⟨acc, rfl⟩
  | cons root roots ih =>
    intro acc hact
    obtain ⟨acc1, hacc1⟩ := collectChildren_isSome root.children acc
      (hact root (List.mem_cons_self root roots))
    obtain ⟨table, htable⟩ := ih acc1
      (fun r hr => hact r (List.mem_cons_of_mem root hr))
    exact ⟨table, by rw [collectRoots, hacc1]; exact htable⟩

/-- C6: for well-formed trees (every child carries an action, as every
child built by `expand` does), `best_action()` aggregates `n` and `q` per
distinct action over every direct child of every ensemble root (each table
entry stores exactly the cross-ensemble sums for its action, and every
action occurring on a child gets an entry); it returns no result (`none`)
exactly when no ensemble root has any children — a valid outcome, not a
panic — and any returned action attains the maximum mean `q_sum / n_sum`
over the table. -/
theorem c6_best_action_spec {S A : Type} [DecidableEq A] (m : MCTS S A)
    (hact : ∀ root ∈ m.roots, ∀ ch ∈ root.children, ch.action ≠ none) :
    ∃ table : List (A × ℚ × ℚ), collectRoots m.roots [] = some table ∧
      (∀ p ∈ table, p.2.1 = actionN m.roots p.1 ∧
        p.2.2 = actionQ m.roots p.1) ∧
      (∀ root ∈ m.roots, ∀ ch ∈ root.children, ∀ a, ch.action = some a →
        a ∈ table.map Prod.fst) ∧
      (m.best_action = some none ↔ ∀ root ∈ m.roots, root.children = []) ∧
      (∀ a, m.best_action = some (some a) →
        ∃ p ∈ table, p.1 = a ∧
          ∀ p2 ∈ table, p2.2.2 / p2.2.1 ≤ p.2.2 / p.2.1) := by
  obtain ⟨table, htable⟩ := collectRoots_isSome m.roots [] hact
  obtain ⟨hN, hQ, hnd, -, hkeys⟩ := collectRoots_spec m.roots [] table htable
  have hndtab : (table.map Prod.fst).Nodup := hnd (by simp)
  have hba : m.best_action
      = some ((selectLoop (fun p => p.2.2 / p.2.1) table none).map
          (fun p => p.2.1)) := by
    unfold MCTS.best_action
    rw [htable]
  refine ⟨table, htable, ?_, hkeys, ?_, ?_⟩
  · intro p hp
    obtain ⟨h1, h2⟩ := mem_table_eq_sums table hndtab p hp
    refine ⟨?_, ?_⟩
    · rw [h1, hN p.1, actionN_eq_sumN]
      simp [tableN]
    · rw [h2, hQ p.1, actionQ_eq_sumQ]
      simp [tableQ]
  · rw [hba]
    constructor
    · intro h
      have hloop : (selectLoop (fun p => p.2.2 / p.2.1) table none).map
          (fun p => p.2.1) = none := Option.some.inj h
      have : selectLoop (fun p => p.2.2 / p.2.1) table none = none := by
        cases hsel : selectLoop (fun p => p.2.2 / p.2.1) table none with
        | none => rfl
        | some p => rw [hsel] at hloop; cases hloop
      have htnil : table = [] := (selectLoop_none_eq_none_iff _ _).mp this
      exact ((collectRoots_table_nil_iff m.roots [] table htable).mp
        htnil).2
    · intro hall
      have htnil : table = [] :=
        (collectRoots_table_nil_iff m.roots [] table htable).mpr
          ⟨rfl, hall⟩
      subst htnil
      rfl
  · intro a h
    rw [hba] at h
    have hloop := Option.some.inj h
    cases hsel : selectLoop (fun p => p.2.2 / p.2.1) table none with
    | none => rw [hsel] at hloop; cases hloop
    | some vp =>
      obtain ⟨v, p⟩ := vp
      rw [hsel] at hloop
      have hpa : p.1 = a := Option.some.inj hloop
      obtain ⟨-, l₁, l₂, hdec, h₁, h₂⟩ := selectLoop_first_max _ _ _ _ hsel
      refine ⟨p, ?_, hpa, ?_⟩
      · rw [hdec]
        exact List.mem_append_right l₁ (List.mem_cons_self p l₂)
      · intro p2 hp2
        rw [hdec] at hp2
        rcases List.mem_append.mp hp2 with hin | hin
        · exact le_of_lt (h₁ p2 hin)
        · rcases List.mem_cons.mp hin with heq | hin
          · rw [heq]
          · exact h₂ p2 hin

/-- Concrete one-member ensemble: the root has a single child with action
`0`, `n = 1`, `q = 1` (used to instantiate theorems). -/
def mEx : MCTS Unit ℕ :=
  { roots := [TreeNode.mk none
      [TreeNode.mk (some 0) [] NodeState.Expandable 1 1]
      NodeState.FullyExpanded 1 1]
  , games := [()]
  , iterations_per_s := 1 }

/-- C6 witness: the aggregation specification instantiated on `mEx`. -/
theorem c6_best_action_spec_witness :
    (∀ root ∈ mEx.roots, ∀ ch ∈ root.children, ch.action ≠ none) ∧
    (∃ table : List (ℕ × ℚ × ℚ), collectRoots mEx.roots [] = some table ∧
      (∀ p ∈ table, p.2.1 = actionN mEx.roots p.1 ∧
        p.2.2 = actionQ mEx.roots p.1) ∧
      (∀ root ∈ mEx.roots, ∀ ch ∈ root.children, ∀ a, ch.action = some a →
        a ∈ table.map Prod.fst) ∧
      (mEx.best_action = some none ↔
        ∀ root ∈ mEx.roots, root.children = []) ∧
      (∀ a, mEx.best_action = some (some a) →
        ∃ p ∈ table, p.1 = a ∧
          ∀ p2 ∈ table, p2.2.2 / p2.2.1 ≤ p.2.2 / p.2.1)) := by
  have hact : ∀ root ∈ mEx.roots, ∀ ch ∈ root.children,
      ch.action ≠ none := by
    intro root hroot ch hch
    simp only [mEx, List.mem_cons, List.not_mem_nil, or_false] at hroot
    subst hroot
    simp only [TreeNode.children_mk, List.mem_cons, List.not_mem_nil,
      or_false] at hch
    subst hch
    simp
  exact ⟨hact, c6_best_action_spec mEx hact⟩


/-! ## C9: visit counts of non-root nodes are always positive -/

/-- Every node of this subtree has visit count at least 1. Holding for every
child subtree of a root, it makes every denominator read by `best_child`
(a child's `n`) and by `best_action` (per-action sums of root children's
`n`) nonzero. -/
inductive PosAll {A : Type} : TreeNode A → Prop
  | mk {a : Option A} {cs : List (TreeNode A)} {st : NodeState} {n q : ℚ}
      (hn : 1 ≤ n) (hcs : ∀ c ∈ cs, PosAll c) : PosAll (.mk a cs st n q)

/-- The visit count of a `PosAll` node is at least 1. -/
theorem PosAll.one_le_n {A : Type} {t : TreeNode A} (h : PosAll t) :
    1 ≤ t.n := by
  cases h with
  | mk hn hcs => simpa using hn

/-- Children of a `PosAll` node are `PosAll`. -/
theorem PosAll.children_posAll {A : Type} {t : TreeNode A} (h : PosAll t) :
    ∀ c ∈ t.children, PosAll c := by
  cases h with
  | mk hn hcs => simpa using hcs

/-- Introduction through the accessors. -/
theorem PosAll.of {A : Type} {t : TreeNode A} (h1 : 1 ≤ t.n)
    (h2 : ∀ c ∈ t.children, PosAll c) : PosAll t := by
  cases t with
  | mk a cs st n q => exact PosAll.mk (by simpa using h1) (by simpa using h2)

/-- One `iteration` increments the node's visit count and keeps every child
subtree `PosAll` (the freshly created child is born with its first visit
already recorded: `n = 0 + 1`). -/
theorem TreeNode.iteration_posAll {S A : Type} [DecidableEq A]
    (g : GameDef S A) (sq lg : ℚ → ℚ) (c : ℚ) (rng : ℕ → ℕ) (fuel : ℕ) :
    ∀ t : TreeNode A, ∀ (k : ℕ) (s : S) (t' : TreeNode A) (delta : ℚ)
      (k' : ℕ),
      TreeNode.iteration g sq lg c rng fuel k t s = some (t', delta, k') →
      (∀ c0 ∈ t.children, PosAll c0) →
      t'.n = t.n + 1 ∧ (∀ c0 ∈ t'.children, PosAll c0) := by
  refine TreeNode.strongInd
    (P := fun t => ∀ k s t' delta k',
      TreeNode.iteration g sq lg c rng fuel k t s = some (t', delta, k') →
      (∀ c0 ∈ t.children, PosAll c0) →
      t'.n = t.n + 1 ∧ (∀ c0 ∈ t'.children, PosAll c0)) ?_
  intro t ih k s t' delta k' h hcs
  obtain ⟨a, cs, st, n, q⟩ := t
  simp only [TreeNode.children_mk] at hcs
  have ihcs : ∀ c0 ∈ cs, ∀ k s t' delta k',
      TreeNode.iteration g sq lg c rng fuel k c0 s = some (t', delta, k') →
      (∀ c1 ∈ c0.children, PosAll c1) →
      t'.n = c0.n + 1 ∧ (∀ c1 ∈ t'.children, PosAll c1) := by
    intro c0 hc0
    exact ih c0 (by simpa using hc0)
  cases st with
  | LeafNode =>
    rw [TreeNode.iteration_leaf g sq lg c rng fuel k
      (TreeNode.mk a cs NodeState.LeafNode n q) s rfl] at h
    have hinj := (Option.some.inj h).symm
    have ht' := congrArg Prod.fst hinj
    subst ht'
    exact ⟨by simp, by simpa using hcs⟩
  | FullyExpanded =>
    rw [TreeNode.iteration_fully g sq lg c rng fuel k
      (TreeNode.mk a cs NodeState.FullyExpanded n q) s rfl] at h
    cases hbc : TreeNode.best_child_idx sq lg c
        (TreeNode.mk a cs NodeState.FullyExpanded n q) with
    | none => rw [hbc] at h; cases h
    | some p =>
      obtain ⟨i, child⟩ := p
      simp only [hbc] at h
      cases hact : child.action with
      | none => simp only [hact] at h; cases h
      | some a0 =>
        simp only [hact] at h
        cases hit : TreeNode.iteration g sq lg c rng fuel k child
            (g.make_move s a0) with
        | none => simp only [hit] at h; cases h
        | some pr =>
          obtain ⟨childRes, delta2, k2⟩ := pr
          simp only [hit] at h
          have hinj := (Option.some.inj h).symm
          have ht' := congrArg Prod.fst hinj
          subst ht'
          have hchildmem : child ∈ cs := by
            simpa using TreeNode.best_child_idx_mem_children hbc
          have hchildPos : PosAll child := hcs child hchildmem
          obtain ⟨hrn, hrcs⟩ := ihcs child hchildmem k (g.make_move s a0)
            childRes delta2 k2 hit hchildPos.children_posAll
          have hresPos : PosAll childRes := PosAll.of
            (by rw [hrn]; have := hchildPos.one_le_n; linarith) hrcs
          refine ⟨by simp, ?_⟩
          intro c0 hc0
          simp only [TreeNode.children_mk] at hc0
          rcases List.mem_or_eq_of_mem_set hc0 with hmem | heq
          · exact hcs c0 hmem
          · rw [heq]; exact hresPos
  | Expandable =>
    rw [TreeNode.iteration_expandable g sq lg c rng fuel k
      (TreeNode.mk a cs NodeState.Expandable n q) s rfl] at h
    cases hexp : TreeNode.expand g (rng k) s
        (TreeNode.mk a cs NodeState.Expandable n q) with
    | none => rw [hexp] at h; cases h
    | some pr =>
      obtain ⟨t1, res⟩ := pr
      obtain ⟨hpa, hpn, hpq, hcnone, hcsome⟩ := TreeNode.expand_preserves hexp
      cases res with
      | none =>
        simp only [hexp] at h
        have hinj := (Option.some.inj h).symm
        have ht' := congrArg Prod.fst hinj
        subst ht'
        refine ⟨by simpa using hpn, ?_⟩
        intro c0 hc0
        simp only [TreeNode.children_mk] at hc0
        rw [hcnone rfl] at hc0
        simp only [TreeNode.children_mk] at hc0
        exact hcs c0 hc0
      | some a0 =>
        simp only [hexp] at h
        have hinj := (Option.some.inj h).symm
        have ht' := congrArg Prod.fst hinj
        subst ht'
        have hch : t1.children = cs ++ [TreeNode.new (some a0)] := by
          simpa using hcsome a0 (Eq.refl (some a0))
        have hlist : listModify
            (fun ch => TreeNode.mk ch.action ch.children ch.state
              (ch.n + 1) (ch.q + g.reward (playoutAux g rng fuel (k + 1)
                (g.make_move s a0)).1))
            (t1.children.length - 1) t1.children
            = cs ++ [TreeNode.mk (some a0) [] NodeState.Expandable (0 + 1)
                (0 + g.reward (playoutAux g rng fuel (k + 1)
                  (g.make_move s a0)).1)] := by
          rw [hch, show (cs ++ [TreeNode.new (some a0)]).length - 1
              = cs.length by simp, listModify_append_singleton]
          rfl
        refine ⟨by simpa using hpn, ?_⟩
        intro c0 hc0
        simp only [TreeNode.children_mk, hlist] at hc0
        rcases List.mem_append.mp hc0 with hmem | hmem
        · exact hcs c0 hmem
        · rcases List.mem_cons.mp hmem with heq | hcontra
          · rw [heq]
            exact PosAll.mk (by norm_num) (by simp)
          · cases hcontra

/-- The per-member sampling loop keeps every child subtree `PosAll`. -/
theorem searchMember_posAll {S A : Type} [DecidableEq A] (g : GameDef S A)
    (sq lg : ℚ → ℚ) (c : ℚ) (rng : ℕ → ℕ) (fuel : ℕ) (s : S) :
    ∀ (ns k : ℕ) (root root' : TreeNode A) (k' : ℕ),
      searchMember g sq lg c rng fuel s ns k root = some (root', k') →
      (∀ c0 ∈ root.children, PosAll c0) →
      (∀ c0 ∈ root'.children, PosAll c0) := by
  intro ns
  induction ns with
  | zero =>
    intro k root root' k' h hcs
    have hinj := (Option.some.inj h).symm
    have hroot := congrArg Prod.fst hinj
    subst hroot
    exact hcs
  | succ ns ihn =>
    intro k root root' k' h hcs
    rw [searchMember] at h
    cases hit : TreeNode.iteration g sq lg c rng fuel k root s with
    | none => rw [hit] at h; cases h
    | some pr =>
      obtain ⟨root1, d1, k1⟩ := pr
      simp only [hit] at h
      exact ihn k1 root1 root' k' h
        (TreeNode.iteration_posAll g sq lg c rng fuel root k s root1 d1 k1
          hit hcs).2

/-- The ensemble loop of `search` keeps every root's child subtrees
`PosAll`. -/
theorem searchGo_posAll {S A : Type} [DecidableEq A] (g : GameDef S A)
    (sq lg : ℚ → ℚ) (c : ℚ) (rng : ℕ → ℕ) (fuel : ℕ) (n_samples : ℕ) :
    ∀ (games : List S) (roots : List (TreeNode A)) (k : ℕ)
      (rootsRes : List (TreeNode A)) (k' : ℕ),
      searchGo g sq lg c rng fuel n_samples roots games k
        = some (rootsRes, k') →
      (∀ root ∈ roots, ∀ c0 ∈ root.children, PosAll c0) →
      (∀ root ∈ rootsRes, ∀ c0 ∈ root.children, PosAll c0) := by
  intro games
  induction games with
  | nil =>
    intro roots k rootsRes k' h hcs
    rw [searchGo] at h
    have hinj := (Option.some.inj h).symm
    have hroots := congrArg Prod.fst hinj
    subst hroots
    exact hcs
  | cons s games ihg =>
    intro roots k rootsRes k' h hcs
    cases roots with
    | nil => cases h
    | cons root roots =>
      rw [searchGo] at h
      cases hm : searchMember g sq lg c rng fuel s n_samples k root with
      | none => rw [hm] at h; cases h
      | some pr =>
        obtain ⟨root1, k1⟩ := pr
        simp only [hm] at h
        cases hgo : searchGo g sq lg c rng fuel n_samples roots games k1 with
        | none => rw [hgo] at h; cases h
        | some pr2 =>
          obtain ⟨roots2, k2⟩ := pr2
          simp only [hgo] at h
          have hinj := (Option.some.inj h).symm
          have hroots : rootsRes = root1 :: roots2 := congrArg Prod.fst hinj
          subst hroots
          intro r hr
          rcases List.mem_cons.mp hr with hc | hc
          · subst hc
            exact searchMember_posAll g sq lg c rng fuel s n_samples k root
              _ k1 hm (hcs root (List.mem_cons_self _ _))
          · exact ihg roots k1 roots2 k2 hgo
              (fun r2 hr2 => hcs r2 (List.mem_cons_of_mem _ hr2)) r hc

/-- Entries added by `tableAdd` with a contribution of at least 1 keep all
stored `n` sums at least 1. -/
theorem tableAdd_pos {A : Type} [DecidableEq A] (a : A) (dn dq : ℚ)
    (hdn : 1 ≤ dn) :
    ∀ table : List (A × ℚ × ℚ), (∀ p ∈ table, 1 ≤ p.2.1) →
      ∀ p ∈ tableAdd a dn dq table, 1 ≤ p.2.1 := by
  intro table
  induction table with
  | nil =>
    intro _ p hp
    simp only [tableAdd, List.mem_cons, List.not_mem_nil, or_false] at hp
    subst hp
    simpa using hdn
  | cons b rest ih =>
    intro htab p hp
    obtain ⟨x, xn, xq⟩ := b
    by_cases hax : a = x
    · subst hax
      rw [show tableAdd a dn dq ((a, xn, xq) :: rest)
          = (a, xn + dn, xq + dq) :: rest by simp [tableAdd]] at hp
      rcases List.mem_cons.mp hp with hpe | hpe
      · subst hpe
        have hx : 1 ≤ xn := by
          simpa using htab (a, xn, xq) (List.mem_cons_self _ _)
        show (1 : ℚ) ≤ xn + dn
        linarith
      · exact htab p (List.mem_cons_of_mem _ hpe)
    · rw [show tableAdd a dn dq ((x, xn, xq) :: rest)
          = (x, xn, xq) :: tableAdd a dn dq rest by simp [tableAdd, hax]]
        at hp
      rcases List.mem_cons.mp hp with hp | hp
      · subst hp
        simpa using htab (x, xn, xq) (List.mem_cons_self _ _)
      · exact ih (fun p2 hp2 => htab p2 (List.mem_cons_of_mem _ hp2)) p hp

/-- Children with positive visit counts produce per-action sums of at
least 1. -/
theorem collectChildren_pos {A : Type} [DecidableEq A] :
    ∀ (cs : List (TreeNode A)) (acc table : List (A × ℚ × ℚ)),
      collectChildren cs acc = some table →
      (∀ ch ∈ cs, 1 ≤ ch.n) → (∀ p ∈ acc, 1 ≤ p.2.1) →
      ∀ p ∈ table, 1 ≤ p.2.1 := by
  intro cs
  induction cs with
  | nil =>
    intro acc table h hcs hacc
    have hat : acc = table := Option.some.inj h
    subst hat
    exact hacc
  | cons ch rest ih =>
    intro acc table h hcs hacc
    rw [collectChildren] at h
    cases hact : ch.action with
    | none => rw [hact] at h; cases h
    | some a0 =>
      rw [hact] at h
      exact ih _ _ h (fun x hx => hcs x (List.mem_cons_of_mem _ hx))
        (tableAdd_pos a0 ch.n ch.q (hcs ch (List.mem_cons_self _ _)) acc
          hacc)

/-- Across the ensemble: every `best_action` denominator is at least 1 when
every root child subtree is `PosAll`. -/
theorem collectRoots_pos {A : Type} [DecidableEq A] :
    ∀ (roots : List (TreeNode A)) (acc table : List (A × ℚ × ℚ)),
      collectRoots roots acc = some table →
      (∀ root ∈ roots, ∀ c0 ∈ root.children, PosAll c0) →
      (∀ p ∈ acc, 1 ≤ p.2.1) →
      ∀ p ∈ table, 1 ≤ p.2.1 := by
  intro roots
  induction roots with
  | nil =>
    intro acc table h _ hacc
    have hat : acc = table := Option.some.inj h
    subst hat
    exact hacc
  | cons root roots ih =>
    intro acc table h hroots hacc
    rw [collectRoots] at h
    cases hcc : collectChildren root.children acc with
    | none => rw [hcc] at h; cases h
    | some acc1 =>
      rw [hcc] at h
      have hacc1 : ∀ p ∈ acc1, 1 ≤ p.2.1 :=
        collectChildren_pos root.children acc acc1 hcc
          (fun ch hch =>
            (hroots root (List.mem_cons_self _ _) ch hch).one_le_n)
          hacc
      exact ih acc1 table h
        (fun r hr => hroots r (List.mem_cons_of_mem _ hr)) hacc1

/-- The coordinator states reachable through the public interface: `new`,
`advance_game` and successful `search` calls (`search_time` only invokes
`search` in a loop, and `best_action` / `tree_statistics` do not modify the
coordinator). -/
inductive Reachable {S A : Type} [DecidableEq A] (g : GameDef S A) :
    MCTS S A → Prop
  | new : ∀ (game : S) (size : ℕ), Reachable g (MCTS.new g game size)
  | advance : ∀ (m : MCTS S A) (game : S), Reachable g m →
      Reachable g (m.advance_game g game)
  | search : ∀ (m : MCTS S A) (sq lg : ℚ → ℚ) (n_samples : ℕ) (c : ℚ)
      (rng : ℕ → ℕ) (fuel k : ℕ) (m' : MCTS S A) (k' : ℕ),
      Reachable g m →
      MCTS.search g sq lg m n_samples c rng fuel k = some (m', k') →
      Reachable g m'

/-- C9: on every coordinator state reachable through the public interface,
every non-root node has visit count at least 1 (`PosAll` on every root's
child subtrees) — the first visit increment happens in the same `iteration`
that creates a node — and consequently every per-action `n` sum that
`best_action` divides by is at least 1. The `q/n` denominators read by
`best_child` during `search` are exactly the `n` of such non-root nodes, so
none of them is zero. -/
theorem c9_no_zero_visit_denominators {S A : Type} [DecidableEq A]
    (g : GameDef S A) (m : MCTS S A) (h : Reachable g m) :
    (∀ root ∈ m.roots, ∀ c0 ∈ root.children, PosAll c0) ∧
    (∀ table : List (A × ℚ × ℚ), collectRoots m.roots [] = some table →
      ∀ p ∈ table, 1 ≤ p.2.1 ∧ p.2.1 ≠ 0) := by
  have hmain : ∀ root ∈ m.roots, ∀ c0 ∈ root.children, PosAll c0 := by
    induction h with
    | new game size =>
      intro root hroot
      have hmem : root ∈ List.replicate size (TreeNode.new none) := hroot
      rw [List.eq_of_mem_replicate hmem]
      intro c0 hc0
      simp [TreeNode.new] at hc0
    | advance m game hreach ihr =>
      intro root hroot
      have hmem : root ∈ List.replicate m.games.length (TreeNode.new none) :=
        hroot
      rw [List.eq_of_mem_replicate hmem]
      intro c0 hc0
      simp [TreeNode.new] at hc0
    | search m sq lg n_samples c rng fuel k m' k' hreach heq ihr =>
      unfold MCTS.search at heq
      cases hgo : searchGo g sq lg c rng fuel n_samples m.roots m.games k
        with
      | none => rw [hgo] at heq; cases heq
      | some pr =>
        obtain ⟨roots2, k2⟩ := pr
        rw [hgo] at heq
        cases heq
        exact searchGo_posAll g sq lg c rng fuel n_samples m.games m.roots
          k _ _ hgo ihr
  refine ⟨hmain, ?_⟩
  intro table htable p hp
  have h1 : 1 ≤ p.2.1 :=
    collectRoots_pos m.roots [] table htable hmain (by simp) p hp
  exact ⟨h1, by intro hcontra; rw [hcontra] at h1; norm_num at h1⟩

/-- C9 witness: a freshly constructed one-member coordinator. -/
theorem c9_no_zero_visit_denominators_witness :
    Reachable trivGame (MCTS.new trivGame () 1) ∧
    (∀ root ∈ (MCTS.new trivGame () 1).roots, ∀ c0 ∈ root.children,
      PosAll c0) ∧
    (∀ table : List (Unit × ℚ × ℚ),
      collectRoots (MCTS.new trivGame () 1).roots [] = some table →
      ∀ p ∈ table, 1 ≤ p.2.1 ∧ p.2.1 ≠ 0) :=
  ⟨Reachable.new () 1,
   (c9_no_zero_visit_denominators trivGame (MCTS.new trivGame () 1)
     (Reachable.new () 1)).1,
   (c9_no_zero_visit_denominators trivGame (MCTS.new trivGame () 1)
     (Reachable.new () 1)).2⟩

end Mcts
